import Mathlib

/-!
Shallow embedding of the rschess chess library (board representation, move
generation, FEN/UCI codecs) and proofs about it.  Rust sources embedded here:
`src/lib.rs` (the `Board` FEN codec), `src/position.rs` (`Position`, move
generation, legality filter, material), `src/move_.rs` (`Move`, UCI codec),
`src/piece.rs` (piece characters).  The repository's `helpers` module is not
among the provided sources; each definition standing in for one of its
functions is marked `Modelled from the spec:` and follows the specification's
description (edge checks, square indexing, check detection, move application).

Conventions: colors are booleans (white = `true`), matching `position.rs`;
board content is a list of 64 `Occupant`s indexed 0..63 with a1 = 0, h8 = 63;
strings are embedded as `List Char`; Rust panics are modelled by `Option`
(`none` = panic) where a reachable panic matters to a claim.
-/

namespace Rschess

/-- Piece types, `src/piece.rs` (`PieceType`). -/
inductive PieceType where
  | K
  | Q
  | B
  | N
  | R
  | P
deriving DecidableEq, Repr

/-- A piece: type and color (white = `true`), `src/position.rs` / old `src/lib.rs` (`Piece`). -/
structure Piece where
  pt : PieceType
  color : Bool
deriving DecidableEq, Repr

/-- A square occupant, `src/lib.rs` (`Occupant`). -/
inductive Occupant where
  | piece (p : Piece)
  | empty
deriving DecidableEq, Repr

/-- Special move tags, `src/move_.rs` (`SpecialMoveType`). -/
inductive SpecialMoveType where
  | castlingKingside
  | castlingQueenside
  | promotion (pt : PieceType)
  | enPassant
  | unclear
deriving DecidableEq, Repr

/-- A move: source square index, destination square index, optional special
tag, `src/move_.rs` (`Move`). -/
structure Move where
  src : Nat
  dest : Nat
  special : Option SpecialMoveType
deriving DecidableEq, Repr

/-- Read board content at square index `i` (Rust indexes a fixed
`[Occupant; 64]`; out-of-range reads return `empty` here, and every call site
below stays in range on 64-square content). -/
def getSq (content : List Occupant) (i : Nat) : Occupant :=
  content.getD i Occupant.empty

/-- `src/lib.rs` `Board::sq_to_idx`:
`(rank.to_digit(10).unwrap() - 1) * 8 + (file as usize - 97)`.
The repository's `helpers::sq_to_idx` (not under src/) is modelled by this
same formula, from the spec: a1 = 0, h8 = 63, file = idx mod 8, rank = idx div 8. -/
def sq_to_idx (file rank : Char) : Nat :=
  (rank.toNat - 48 - 1) * 8 + (file.toNat - 97)

/-- `src/lib.rs` `Board::idx_to_sq`:
`((idx % 8 + 97) as u8 as char, char::from_digit((idx / 8 + 1) as u32, 10))`.
Also stands in for `helpers::idx_to_sq` (not under src/), same mapping per the spec. -/
def idx_to_sq (idx : Nat) : Char × Char :=
  (Char.ofNat (idx % 8 + 97), Char.ofNat (idx / 8 + 1 + 48))

/-- UTF-8 byte length of a string given as a character list; Rust's
`str::len` counts bytes, not characters. -/
def utf8Len (cs : List Char) : Nat :=
  (cs.map Char.utf8Size).sum

/-- `src/piece.rs` `PieceType::try_from::<char>`: reject non-ASCII-alphanumeric
characters, then match the ASCII-lowercased character; `none` is the
`InvalidPieceCharacterError` case. -/
def pieceTypeOfChar (c : Char) : Option PieceType :=
  if !c.isAlphanum then none
  else
    match c.toLower with
    | 'k' => some PieceType.K
    | 'q' => some PieceType.Q
    | 'b' => some PieceType.B
    | 'n' => some PieceType.N
    | 'r' => some PieceType.R
    | 'p' => some PieceType.P
    | _ => none

/-- UCI decode errors, `src/move_.rs` (`InvalidUciError`). -/
inductive InvalidUciError where
  | length
  | invalidSquareName (file rank : Char)
  | invalidPieceType (c : Char)
deriving DecidableEq, Repr

/-- File letter test `('a'..='h').contains`, as used by `Move::from_uci`. -/
def isFileChar (c : Char) : Bool :=
  'a' ≤ c && c ≤ 'h'

/-- Rank digit test `('1'..='8').contains`, as used by `Move::from_uci`. -/
def isRankChar (c : Char) : Bool :=
  '1' ≤ c && c ≤ '8'

/-- `src/move_.rs` `Move::from_uci`, on the move text as a character list.
Rust checks the UTF-8 *byte* length, then unwraps the first four characters
(`chars().nth(..).unwrap()`); `none` models the panic that occurs when the
byte length is 4 or 5 but fewer than four characters exist. -/
def from_uci_body : List Char → Option (Except InvalidUciError Move)
  | f0 :: r0 :: f1 :: r1 :: rest =>
    some (
      if !(isFileChar f0 && isRankChar r0) then
        Except.error (InvalidUciError.invalidSquareName f0 r0)
      else if !(isFileChar f1 && isRankChar r1) then
        Except.error (InvalidUciError.invalidSquareName f1 r1)
      else
        let src := sq_to_idx f0 r0
        let dest := sq_to_idx f1 r1
        match rest.head? with
        | some p =>
          match pieceTypeOfChar p with
          | none => Except.error (InvalidUciError.invalidPieceType p)
          | some pt =>
            if pt = PieceType.K then Except.error (InvalidUciError.invalidPieceType p)
            else Except.ok ⟨src, dest, some (SpecialMoveType.promotion pt)⟩
        | none => Except.ok ⟨src, dest, some SpecialMoveType.unclear⟩)
  | _ => none

/-- See the doc comment above `from_uci_body`: the byte-length test, then the
character unwraps and square/promotion validation. -/
def from_uci (uci : List Char) : Option (Except InvalidUciError Move) :=
  if utf8Len uci ≠ 4 ∧ utf8Len uci ≠ 5 then some (Except.error InvalidUciError.length)
  else from_uci_body uci

/-- `src/move_.rs` `Move::to_uci`: source square, destination square, and the
lowercase promotion letter exactly when the tag is `Promotion`. -/
def to_uci (m : Move) : List Char :=
  let s := idx_to_sq m.src
  let d := idx_to_sq m.dest
  [s.1, s.2, d.1, d.2] ++
    match m.special with
    | some (SpecialMoveType.promotion pt) =>
      [(match pt with
        | PieceType.K => 'k'
        | PieceType.Q => 'q'
        | PieceType.B => 'b'
        | PieceType.N => 'n'
        | PieceType.R => 'r'
        | PieceType.P => 'p')]
    | _ => []

/-- Rust half-open range `a..b` as the list of its elements. -/
def rangeExcl (a b : Nat) : List Nat :=
  List.range' a (b - a)

/-- Rust inclusive range `a..=b` as the list of its elements (empty when `b < a`). -/
def rangeIncl (a b : Nat) : List Nat :=
  List.range' a (b + 1 - a)

/-- Modelled from the spec (`helpers::long_range_can_move` is not under src/):
"Edge check = given a square and a signed axis offset, decide whether stepping
by that offset would wrap around a board edge (file overflow/underflow) rather
than move one square in the intended geometric direction."  The eight axis
offsets used by the generators are `±1` (file), `±8` (rank), `±7` and `±9`
(diagonals); the step is allowed when both the file and the rank stay on the
board. -/
def long_range_can_move (sq : Nat) (axis : Int) : Bool :=
  let f : Int := (sq : Int) % 8
  let r : Int := (sq : Int) / 8
  let d : Int × Int :=
    if axis = 1 then (1, 0)
    else if axis = -1 then (-1, 0)
    else if axis = 8 then (0, 1)
    else if axis = -8 then (0, -1)
    else if axis = 7 then (-1, 1)
    else if axis = -7 then (1, -1)
    else if axis = 9 then (1, 1)
    else if axis = -9 then (-1, -1)
    else (0, 0)
  decide (0 ≤ f + d.1 ∧ f + d.1 < 8 ∧ 0 ≤ r + d.2 ∧ r + d.2 < 8)

/-- Modelled from the spec (`helpers::count_pieces` is not under src/): the
number of occupied squares among the given indices, used by the castling rule
"all squares strictly between king and rook are empty except the rook itself". -/
def count_pieces (rng : List Nat) (content : List Occupant) : Nat :=
  (rng.filter fun j => getSq content j ≠ Occupant.empty).length

/-- Modelled from the spec (`helpers::find_all_pieces` is not under src/): the
indices of the occupied squares among the given indices, in order. -/
def find_all_pieces (rng : List Nat) (content : List Occupant) : List Nat :=
  rng.filter fun j => getSq content j ≠ Occupant.empty

/-- Modelled from the spec (`helpers::count_piece` is not under src/): the
number of squares among the given indices holding exactly the given piece. -/
def count_piece (rng : List Nat) (pc : Piece) (content : List Occupant) : Nat :=
  (rng.filter fun j => getSq content j = Occupant.piece pc).length

/-- Modelled from the spec (`helpers::find_king` is not under src/): the index
of the given side's king; the spec's Position invariant guarantees exactly one
king per color (returns the content length if absent). -/
def find_king (side : Bool) (content : List Occupant) : Nat :=
  content.findIdx fun o => o == Occupant.piece ⟨PieceType.K, side⟩

/-- Modelled from the spec (`helpers::color_complex_of` is not under src/):
"Color complex: whether a board square is light or dark"; squares where file
ordinal plus rank ordinal is odd form one complex. -/
def color_complex_of (sq : Nat) : Bool :=
  (sq % 8 + sq / 8) % 2 = 1

/-- The chess position, `src/position.rs` (`Position`): board content, side to
move (white = `true`), castling-rights slots `[K, Q, k, q]` each holding the
associated rook's square index when the right exists, and the en passant
target square. -/
structure Position where
  content : List Occupant
  side : Bool
  castling_rights : List (Option Nat)
  ep_target : Option Nat
deriving DecidableEq, Repr

/-- One step of the sliding-piece walk of
`Position::gen_long_range_piece_pseudolegal_moves`: advance along
`axis_direction` while the edge check permits, stop inclusively on the first
enemy piece, stop exclusively before a friendly piece.  `fuel` bounds the walk
(7 steps suffice on an 8×8 board; callers pass 8). -/
def walk_ray (content : List Occupant) (side : Bool) (cur : Int) (dir : Int) :
    Nat → List Nat
  | 0 => []
  | fuel + 1 =>
    if long_range_can_move cur.toNat dir then
      let nxt := cur + dir
      match getSq content nxt.toNat with
      | Occupant.piece pc => if pc.color = side then [] else [nxt.toNat]
      | Occupant.empty => nxt.toNat :: walk_ray content side nxt dir fuel
    else []

/-- `src/position.rs` `Position::gen_long_range_piece_pseudolegal_moves`:
queen walks all four axes, rook file+rank, bishop the diagonals; each axis is
walked in its negative then its positive direction (the function panics on a
non-long-range piece type; it is only invoked with Q, R, B). -/
def gen_long_range_piece_pseudolegal_moves (p : Position) (sq : Nat)
    (piece_type : PieceType) : List Move :=
  let axes : List Int :=
    match piece_type with
    | PieceType.Q => [1, 8, 7, 9]
    | PieceType.R => [1, 8]
    | PieceType.B => [7, 9]
    | _ => []
  let dest_squares :=
    axes.foldl (fun acc axis =>
      acc ++ walk_ray p.content p.side (sq : Int) (-axis) 8
          ++ walk_ray p.content p.side (sq : Int) axis 8) []
  dest_squares.map fun dest => ⟨sq, dest, none⟩

/-- The knight leap table of `gen_pseudolegal_moves`:
`[(7, [-1, 8]), (9, [8, 1]), (-7, [1, -8]), (-9, [-8, -1])]`. -/
def knight_b_r_axes : List (Int × List Int) :=
  [(7, [-1, 8]), (9, [8, 1]), (-7, [1, -8]), (-9, [-8, -1])]

/-- The king, knight and pawn cases of `Position::gen_pseudolegal_moves` for
the piece standing on square `i`, plus dispatch to the sliding-piece walker;
mirrors the per-square `match` of `src/position.rs` lines 228–360, in the
same order. -/
def piece_pseudolegal_moves (p : Position) (i : Nat) (piece : Piece) : List Move :=
  match piece.pt with
  | PieceType.K =>
    let possible_dests : List Nat :=
      ([1, 8, 7, 9] : List Nat).foldl (fun acc axis =>
        acc ++ (if long_range_can_move i (Int.ofNat axis) then [i + axis] else [])
            ++ (if long_range_can_move i (-(Int.ofNat axis)) then [i - axis] else [])) []
    let possible_dests := possible_dests.filter fun dest =>
      match getSq p.content dest with
      | Occupant.piece pc => pc.color ≠ p.side
      | Occupant.empty => true
    let kingMoves : List Move := possible_dests.map fun d => ⟨i, d, none⟩
    let off := if p.side then 0 else 2
    let oo_sq := if p.side then 6 else 62
    let ooo_sq := if p.side then 2 else 58
    let kingside := p.castling_rights.getD off none
    let queenside := p.castling_rights.getD (off + 1) none
    let ooMoves : List Move :=
      match kingside with
      | some r =>
        match count_pieces (rangeIncl (i + 1) oo_sq) p.content with
        | 0 => [⟨i, oo_sq, some SpecialMoveType.castlingKingside⟩]
        | 1 =>
          if (find_all_pieces (rangeIncl (i + 1) oo_sq) p.content).getD 0 0 = r then
            [⟨i, oo_sq, some SpecialMoveType.castlingKingside⟩]
          else []
        | _ => []
      | none => []
    let oooMoves : List Move :=
      match queenside with
      | some r =>
        match count_pieces (rangeExcl ooo_sq i) p.content with
        | 0 => [⟨i, ooo_sq, some SpecialMoveType.castlingQueenside⟩]
        | 1 =>
          if (find_all_pieces (rangeExcl ooo_sq i) p.content).getD 0 0 = r then
            [⟨i, ooo_sq, some SpecialMoveType.castlingQueenside⟩]
          else []
        | _ => []
      | none => []
    kingMoves ++ ooMoves ++ oooMoves
  | PieceType.N =>
    let dest_squares : List Nat :=
      knight_b_r_axes.foldl (fun acc bra =>
        if long_range_can_move i bra.1 then
          let b_dest : Int := (i : Int) + bra.1
          acc ++ bra.2.foldl (fun acc2 r_axis =>
            if long_range_can_move b_dest.toNat r_axis then
              acc2 ++ [(b_dest + r_axis).toNat]
            else acc2) []
        else acc) []
    (dest_squares.filter fun dest =>
      match getSq p.content dest with
      | Occupant.piece pc => pc.color ≠ p.side
      | Occupant.empty => true).map fun dest => ⟨i, dest, none⟩
  | PieceType.P =>
    let possible_dests : List (Nat × Bool) :=
      if p.side then
        (if getSq p.content (i + 8) = Occupant.empty then
          [(i + 8, false)] ++
            (if 8 ≤ i ∧ i < 16 ∧ getSq p.content (i + 16) = Occupant.empty then
              [(i + 16, false)] else [])
        else []) ++
        (if long_range_can_move i 7 then
          match getSq p.content (i + 7) with
          | Occupant.piece pc => if pc.color = false then [(i + 7, false)] else []
          | Occupant.empty =>
            if p.ep_target = some (i + 7) then [(i + 7, true)] else []
        else []) ++
        (if long_range_can_move i 9 then
          match getSq p.content (i + 9) with
          | Occupant.piece pc => if pc.color = false then [(i + 9, false)] else []
          | Occupant.empty =>
            if p.ep_target = some (i + 9) then [(i + 9, true)] else []
        else [])
      else
        (if getSq p.content (i - 8) = Occupant.empty then
          [(i - 8, false)] ++
            (if 48 ≤ i ∧ i < 56 ∧ getSq p.content (i - 16) = Occupant.empty then
              [(i - 16, false)] else [])
        else []) ++
        (if long_range_can_move i (-9) then
          match getSq p.content (i - 9) with
          | Occupant.piece pc => if pc.color = true then [(i - 9, false)] else []
          | Occupant.empty =>
            if p.ep_target = some (i - 9) then [(i - 9, true)] else []
        else []) ++
        (if long_range_can_move i (-7) then
          match getSq p.content (i - 7) with
          | Occupant.piece pc => if pc.color = true then [(i - 7, false)] else []
          | Occupant.empty =>
            if p.ep_target = some (i - 7) then [(i - 7, true)] else []
        else [])
    possible_dests.foldl (fun acc de =>
      acc ++
        (if de.1 < 8 ∨ (56 ≤ de.1 ∧ de.1 < 64) then
          [PieceType.Q, PieceType.R, PieceType.B, PieceType.N].map fun pt =>
            (⟨i, de.1, some (SpecialMoveType.promotion pt)⟩ : Move)
        else
          [⟨i, de.1, if de.2 then some SpecialMoveType.enPassant else none⟩])) []
  | long_range_type => gen_long_range_piece_pseudolegal_moves p i long_range_type

/-- `src/position.rs` `Position::gen_pseudolegal_moves`: scan the 64 squares in
index order; for each piece of the side to move, append its moves. -/
def gen_pseudolegal_moves (p : Position) : List Move :=
  (List.range 64).foldl (fun acc i =>
    match getSq p.content i with
    | Occupant.piece piece =>
      if piece.color ≠ p.side then acc else acc ++ piece_pseudolegal_moves p i piece
    | Occupant.empty => acc) []

/-- Modelled from the spec (`helpers::king_capture_pseudolegal` is not under
src/): whether side `side` has a pseudolegal move capturing the *other*
side's king — "check whether the opponent's pseudolegal moves include a
capture of the mover's king square"; generated without castling rights or an
en passant target (neither can capture a king). -/
def king_capture_pseudolegal (content : List Occupant) (side : Bool) : Bool :=
  (gen_pseudolegal_moves ⟨content, side, [none, none, none, none], none⟩).any
    fun m => getSq content m.dest = Occupant.piece ⟨PieceType.K, !side⟩

/-- Modelled from the spec (`helpers::change_content` is not under src/):
the board content after applying a move — "handling capture removal,
en-passant pawn removal, rook relocation on castling, promotion piece
substitution".  The moving piece leaves its source and lands on (or, for a
promotion, is substituted on) the destination; an en passant capture removes
the enemy pawn behind the target square; castling relocates the rook recorded
in the mover's castling-rights slot to the square beside the king's
destination (f-file for kingside, d-file for queenside). -/
def change_content (content : List Occupant) (m : Move)
    (castling_rights : List (Option Nat)) : List Occupant :=
  let moving := getSq content m.src
  let color := match moving with
    | Occupant.piece pc => pc.color
    | Occupant.empty => true
  let base := (content.set m.src Occupant.empty).set m.dest moving
  match m.special with
  | some (SpecialMoveType.promotion pt) =>
    (content.set m.src Occupant.empty).set m.dest (Occupant.piece ⟨pt, color⟩)
  | some SpecialMoveType.enPassant =>
    base.set (if color then m.dest - 8 else m.dest + 8) Occupant.empty
  | some SpecialMoveType.castlingKingside =>
    let rookSq := (castling_rights.getD (if color then 0 else 2) none).getD 64
    (base.set rookSq Occupant.empty).set (m.dest - 1) (Occupant.piece ⟨PieceType.R, color⟩)
  | some SpecialMoveType.castlingQueenside =>
    let rookSq := (castling_rights.getD (if color then 1 else 3) none).getD 64
    (base.set rookSq Occupant.empty).set (m.dest + 1) (Occupant.piece ⟨PieceType.R, color⟩)
  | _ => base

/-- `src/position.rs` `Position::controls_square`: place a notional pawn of
the opposite color on the square and ask whether any of `side`'s pseudolegal
moves (castling rights and en passant target carried over, side to move set
to `side`) targets it. -/
def controls_square (p : Position) (sq : Nat) (side : Bool) : Bool :=
  let content := p.content.set sq (Occupant.piece ⟨PieceType.P, !side⟩)
  (gen_pseudolegal_moves ⟨content, side, p.castling_rights, p.ep_target⟩).any
    fun m => m.dest = sq

/-- The legality filter closure of `Position::gen_non_illegal_moves`: a
castling move requires every square between source and destination
(inclusive) to be uncontrolled by the opponent; any other move requires the
opponent to have no pseudolegal king capture in the changed content. -/
def legal_filter (p : Position) (m : Move) : Bool :=
  match m.special with
  | some SpecialMoveType.castlingKingside | some SpecialMoveType.castlingQueenside =>
    (rangeIncl (min m.src m.dest) (max m.src m.dest)).all fun sq =>
      !controls_square p sq (!p.side)
  | _ => !king_capture_pseudolegal (change_content p.content m p.castling_rights) (!p.side)

/-- `src/position.rs` `Position::gen_non_illegal_moves`: the pseudolegal moves
that pass the legality filter. -/
def gen_non_illegal_moves (p : Position) : List Move :=
  (gen_pseudolegal_moves p).filter (legal_filter p)

/-- `src/position.rs` `Position::checked_side`: white if black has a
pseudolegal king capture, else black if white has one, else none. -/
def checked_side (p : Position) : Option Bool :=
  if king_capture_pseudolegal p.content false then some true
  else if king_capture_pseudolegal p.content true then some false
  else none

/-- `src/position.rs` `Position::is_check`. -/
def is_check (p : Position) : Bool :=
  (checked_side p).isSome

/-- `src/position.rs` `Position::is_checkmate`. -/
def is_checkmate (p : Position) : Bool :=
  is_check p && (gen_non_illegal_moves p).isEmpty

/-- `src/position.rs` `Position::is_stalemate`. -/
def is_stalemate (p : Position) : Bool :=
  !is_check p && (gen_non_illegal_moves p).isEmpty

/-- `src/position.rs` `Position::stalemated_side`. -/
def stalemated_side (p : Position) : Option Bool :=
  if is_stalemate p then some p.side else none

/-- `src/position.rs` `Position::checkmated_side`. -/
def checkmated_side (p : Position) : Option Bool :=
  if is_checkmate p then some p.side else none

/-- A piece of material, `src/position.rs` (`Material`). -/
inductive Material where
  | knight
  | bishop (complex : Bool)
  | other
deriving DecidableEq, Repr

/-- `src/position.rs` `Position::count_material`: scan the 64 squares in
order, skipping kings; knights and bishops (tagged with their square's color
complex) are recorded, and everything else becomes `other`. -/
def count_material (p : Position) : List Material :=
  (List.range 64).foldl (fun acc sq =>
    match getSq p.content sq with
    | Occupant.piece pc =>
      match pc.pt with
      | PieceType.K => acc
      | PieceType.N => acc ++ [Material.knight]
      | PieceType.B => acc ++ [Material.bishop (color_complex_of sq)]
      | _ => acc ++ [Material.other]
    | Occupant.empty => acc) []

/-- The first-knight removal loop of `Position::is_insufficient_material`
(`copy2.remove(i)` at the first `Knight`, then `break`). -/
def remove_first_knight : List Material → List Material
  | [] => []
  | Material.knight :: t => t
  | m :: t => m :: remove_first_knight t

/-- The first-bishop scan of `Position::is_insufficient_material`. -/
def first_bishop_complex : List Material → Option Bool
  | [] => none
  | Material.bishop c :: _ => some c
  | _ :: t => first_bishop_complex t

/-- `src/position.rs` `Position::is_insufficient_material`: bare material is a
draw; removing one knight leaving nothing is a draw; removing every bishop of
the first bishop's color complex leaving nothing is a draw; anything else is
sufficient. -/
def is_insufficient_material (p : Position) : Bool :=
  let copy1 := count_material p
  if copy1.isEmpty then true
  else if (remove_first_knight copy1).isEmpty then true
  else
    match first_bishop_complex copy1 with
    | some complex => (copy1.filter fun m => m ≠ Material.bishop complex).isEmpty
    | none => false

/-- Split a list into chunks of 8 (Rust `chunks(8)`; on 64-square content this
yields the 8 ranks bottom-to-top). -/
def chunks8 {α : Type} : List α → List (List α)
  | a :: b :: c :: d :: e :: f :: g :: h :: rest => [a, b, c, d, e, f, g, h] :: chunks8 rest
  | [] => []
  | l => [l]

/-- `src/lib.rs` `From<Piece> for char`: the lowercase piece letter, uppercased
for white. -/
def char_of_piece (p : Piece) : Char :=
  let ch :=
    match p.pt with
    | PieceType.K => 'k'
    | PieceType.Q => 'q'
    | PieceType.B => 'b'
    | PieceType.N => 'n'
    | PieceType.R => 'r'
    | PieceType.P => 'p'
  if p.color then ch.toUpper else ch

/-- The per-rank run-length encoding loop shared by `Board::to_fen`
(`src/lib.rs`) and `Position::to_fen` (`src/position.rs`): `e` is the pending
count of empty squares, flushed as a digit before each piece and at the end. -/
def encode_rank_go : List Occupant → Nat → List Char
  | [], e => if 0 < e then [Char.ofNat (48 + e)] else []
  | Occupant.piece p :: rest, e =>
    (if 0 < e then [Char.ofNat (48 + e)] else []) ++ char_of_piece p :: encode_rank_go rest 0
  | Occupant.empty :: rest, e => encode_rank_go rest (e + 1)

/-- Run-length encoding of one rank. -/
def encode_rank_chars (rank : List Occupant) : List Char :=
  encode_rank_go rank 0

/-- Join parts with a separator character (Rust `Vec::join`). -/
def join_sep (sep : Char) : List (List Char) → List Char
  | [] => []
  | [x] => x
  | x :: y :: t => x ++ sep :: join_sep sep (y :: t)

/-- The FEN board-data field: ranks emitted top rank first
(`content.chunks(8).rev()`), joined by `'/'`. -/
def encode_content (content : List Occupant) : List Char :=
  join_sep '/' ((chunks8 content).reverse.map encode_rank_chars)

/-- Decimal digits of a natural number (Rust `usize::to_string`). -/
def nat_chars (n : Nat) : List Char :=
  if n < 10 then [Char.ofNat (48 + n)]
  else nat_chars (n / 10) ++ [Char.ofNat (48 + n % 10)]
decreasing_by exact Nat.div_lt_self (by omega) (by omega)

/-- The castling-availability field of `Position::to_fen` (`src/position.rs`
lines 52–85).  Each present right emits its plain letter when exactly one
same-color rook stands on that side of the king, and otherwise the file letter
of a recorded rook square; `none` models the panic in the black-queenside
branch, which reads `castling_rights[2]` (the black-**kingside** slot) and
unwraps it. -/
def pos_castling_field (p : Position) : Option (List Char) :=
  let content := p.content
  let count_rooks := fun (rng : List Nat) (color : Bool) =>
    count_piece rng ⟨PieceType.R, color⟩ content
  let wk := find_king true content
  let bk := find_king false content
  let c0 : List Char :=
    match p.castling_rights.getD 0 none with
    | some r =>
      [if count_rooks (rangeExcl (wk + 1) 8) true = 1 then 'K' else (idx_to_sq r).1.toUpper]
    | none => []
  let c1 : List Char :=
    match p.castling_rights.getD 1 none with
    | some r =>
      [if count_rooks (rangeExcl 0 wk) true = 1 then 'Q' else (idx_to_sq r).1.toUpper]
    | none => []
  let c2 : List Char :=
    match p.castling_rights.getD 2 none with
    | some r =>
      [if count_rooks (rangeExcl (bk + 1) 64) false = 1 then 'k' else (idx_to_sq r).1]
    | none => []
  let c3 : Option (List Char) :=
    match p.castling_rights.getD 3 none with
    | some _ =>
      if count_rooks (rangeExcl 56 bk) false = 1 then some ['q']
      else
        match p.castling_rights.getD 2 none with
        | some r2 => some [(idx_to_sq r2).1]
        | none => none
    | none => some []
  match c3 with
  | some c3v =>
    let all := c0 ++ c1 ++ c2 ++ c3v
    some (if all.isEmpty then ['-'] else all)
  | none => none

/-- `src/position.rs` `Position::to_fen`: board data, active color, castling
availability and en passant target, space-separated; `none` models the panic
described at `pos_castling_field`. -/
def pos_to_fen (p : Position) : Option (List Char) :=
  match pos_castling_field p with
  | some castling =>
    let board_data := encode_content p.content
    let active_color : List Char := if p.side then ['w'] else ['b']
    let ep : List Char :=
      match p.ep_target with
      | some target => [(idx_to_sq target).1, (idx_to_sq target).2]
      | none => ['-']
    some (join_sep ' ' [board_data, active_color, castling, ep])
  | none => none

/-- The chessboard of `src/lib.rs` (`Board`): content, side to move, boolean
castling rights `[K, Q, k, q]`, en passant target, halfmove clock and
fullmove number. -/
structure Board where
  content : List Occupant
  side_to_move : Bool
  castling_rights : List Bool
  en_passant_target : Option Nat
  halfmove_clock : Nat
  fullmove_number : Nat
deriving DecidableEq, Repr

/-- FEN parse failures of `src/lib.rs` `Board::from_fen`, as structured
variants carrying the data of the corresponding Rust error message. -/
inductive FenError where
  | fieldCount (n : Nat)
  | rankCount (n : Nat)
  | rankOverfull (rankn : Nat)
  | badDigit (d : Nat)
  | digitOverflow (rankn : Nat)
  | badPieceChar (c : Char)
  | extraKing (white : Bool)
  | rankUnderfull (rankn : Nat)
  | missingKing
  | badSideField (s : List Char)
  | castlingFieldLen (n : Nat)
  | kingPosForCastling (letter : Char)
  | duplicateCastling (letter : Char)
  | badCastlingChar (c : Char)
  | rookCountForCastling (letter : Char)
  | epFieldLen (n : Nat)
  | badEpField (s : List Char)
  | badHalfmove (s : List Char)
  | halfmoveTooBig (n : Nat)
  | badFullmove (s : List Char)
  | fullmoveZero
deriving DecidableEq, Repr

/-- Rust `str::split(sep)`: split at every separator occurrence, keeping empty
parts (always at least one part). -/
def split_on (sep : Char) : List Char → List (List Char)
  | [] => [[]]
  | c :: t =>
    match split_on sep t with
    | [] => [[]]
    | h :: r => if c = sep then [] :: h :: r else (c :: h) :: r

/-- `src/lib.rs` `TryFrom<char> for Piece`: reject non-ASCII-alphanumeric
characters, color from `is_uppercase`, type from the ASCII-lowercased letter. -/
def piece_of_char (c : Char) : Option Piece :=
  if !c.isAlphanum then none
  else
    match c.toLower with
    | 'k' => some ⟨PieceType.K, c.isUpper⟩
    | 'q' => some ⟨PieceType.Q, c.isUpper⟩
    | 'b' => some ⟨PieceType.B, c.isUpper⟩
    | 'n' => some ⟨PieceType.N, c.isUpper⟩
    | 'r' => some ⟨PieceType.R, c.isUpper⟩
    | 'p' => some ⟨PieceType.P, c.isUpper⟩
    | _ => none

/-- The mutable state of the board-data loop of `Board::from_fen`: the content
being filled, the king bookkeeping, and the write pointer (Rust decrements it
with `saturating_sub`, which is `Nat` subtraction). -/
structure BoardParse where
  content : List Occupant
  wkSeen : Bool
  wkPos : Nat
  bkSeen : Bool
  bkPos : Nat
  ptr : Nat
deriving DecidableEq, Repr

/-- The inner character loop of `Board::from_fen` for one rank
(`for piece_char in rank.chars().rev()`), carrying the per-rank fill count. -/
def parse_rank_chars (rankn : Nat) :
    List Char → BoardParse → Nat → Except FenError (BoardParse × Nat)
  | [], st, rank_filled => Except.ok (st, rank_filled)
  | c :: rest, st, rank_filled =>
    if rank_filled = 8 then Except.error (FenError.rankOverfull rankn)
    else if c.isDigit then
      let empty_space := c.toNat - 48
      if ¬(1 ≤ empty_space ∧ empty_space ≤ 8) then Except.error (FenError.badDigit empty_space)
      else if 8 - rank_filled < empty_space then Except.error (FenError.digitOverflow rankn)
      else
        parse_rank_chars rankn rest { st with ptr := st.ptr - empty_space }
          (rank_filled + empty_space)
    else
      match piece_of_char c with
      | none => Except.error (FenError.badPieceChar c)
      | some pc =>
        if pc = ⟨PieceType.K, true⟩ then
          if st.wkSeen then Except.error (FenError.extraKing true)
          else
            parse_rank_chars rankn rest
              { st with
                content := st.content.set st.ptr (Occupant.piece pc)
                wkSeen := true
                wkPos := st.ptr
                ptr := st.ptr - 1 }
              (rank_filled + 1)
        else if pc = ⟨PieceType.K, false⟩ then
          if st.bkSeen then Except.error (FenError.extraKing false)
          else
            parse_rank_chars rankn rest
              { st with
                content := st.content.set st.ptr (Occupant.piece pc)
                bkSeen := true
                bkPos := st.ptr
                ptr := st.ptr - 1 }
              (rank_filled + 1)
        else
          parse_rank_chars rankn rest
            { st with
              content := st.content.set st.ptr (Occupant.piece pc)
              ptr := st.ptr - 1 }
            (rank_filled + 1)

/-- The outer rank loop of `Board::from_fen`: parse each rank (characters
reversed), requiring it to account for exactly 8 squares. -/
def parse_ranks : List (List Char) → Nat → BoardParse → Except FenError BoardParse
  | [], _, st => Except.ok st
  | r :: rest, rankn, st =>
    match parse_rank_chars rankn r.reverse st 0 with
    | Except.error e => Except.error e
    | Except.ok (st2, filled) =>
      if filled ≠ 8 then Except.error (FenError.rankUnderfull rankn)
      else parse_ranks rest (rankn - 1) st2

/-- The board-data field of `Board::from_fen`: split on `'/'`, require eight
ranks, run the rank loop from pointer 63, require both kings seen. -/
def parse_board_field (cs : List Char) : Except FenError BoardParse :=
  let ranks := split_on '/' cs
  if ranks.length ≠ 8 then Except.error (FenError.rankCount ranks.length)
  else
    match parse_ranks ranks 8 ⟨List.replicate 64 Occupant.empty, false, 0, false, 0, 63⟩ with
    | Except.error e => Except.error e
    | Except.ok st =>
      if st.wkSeen ∧ st.bkSeen then Except.ok st else Except.error FenError.missingKing

/-- The side-to-move field of `Board::from_fen`: exactly `"w"` or `"b"`. -/
def parse_side_field (cs : List Char) : Except FenError Bool :=
  if cs = ['w'] then Except.ok true
  else if cs = ['b'] then Except.ok false
  else Except.error (FenError.badSideField cs)

/-- The castling-letter loop of `Board::from_fen`: each letter checks the
matching king's position, rejects duplicates, and sets its slot. -/
def parse_castling_chars (wk bk : Nat) :
    List Char → List Bool → Except FenError (List Bool)
  | [], cr => Except.ok cr
  | c :: rest, cr =>
    if c = 'K' then
      if 6 < wk then Except.error (FenError.kingPosForCastling 'K')
      else if cr.getD 0 false then Except.error (FenError.duplicateCastling 'K')
      else parse_castling_chars wk bk rest (cr.set 0 true)
    else if c = 'Q' then
      if ¬(1 ≤ wk ∧ wk ≤ 7) then Except.error (FenError.kingPosForCastling 'Q')
      else if cr.getD 1 false then Except.error (FenError.duplicateCastling 'Q')
      else parse_castling_chars wk bk rest (cr.set 1 true)
    else if c = 'k' then
      if ¬(56 ≤ bk ∧ bk ≤ 62) then Except.error (FenError.kingPosForCastling 'k')
      else if cr.getD 2 false then Except.error (FenError.duplicateCastling 'k')
      else parse_castling_chars wk bk rest (cr.set 2 true)
    else if c = 'q' then
      if ¬(57 ≤ bk ∧ bk < 64) then Except.error (FenError.kingPosForCastling 'q')
      else if cr.getD 3 false then Except.error (FenError.duplicateCastling 'q')
      else parse_castling_chars wk bk rest (cr.set 3 true)
    else Except.error (FenError.badCastlingChar c)

/-- The castling field of `Board::from_fen`: byte length 1..=4, then `"-"` or
the letter loop starting from no rights. -/
def parse_castling_field (cs : List Char) (wk bk : Nat) :
    Except FenError (List Bool) :=
  let lenC := utf8Len cs
  if ¬(1 ≤ lenC ∧ lenC ≤ 4) then Except.error (FenError.castlingFieldLen lenC)
  else if cs = ['-'] then Except.ok [false, false, false, false]
  else parse_castling_chars wk bk cs [false, false, false, false]

/-- The four rook-count validations of `Board::from_fen` (lines 160–171): each
granted right needs exactly one rook of its color strictly between the king
and the relevant board edge. -/
def check_castling_rooks (cr : List Bool) (wk bk : Nat) (content : List Occupant) :
    Except FenError Unit :=
  if cr.getD 0 false ∧ count_piece (rangeIncl (wk + 1) 7) ⟨PieceType.R, true⟩ content ≠ 1 then
    Except.error (FenError.rookCountForCastling 'K')
  else if cr.getD 1 false ∧ count_piece (rangeExcl 0 wk) ⟨PieceType.R, true⟩ content ≠ 1 then
    Except.error (FenError.rookCountForCastling 'Q')
  else if cr.getD 2 false ∧ count_piece (rangeExcl (bk + 1) 64) ⟨PieceType.R, false⟩ content ≠ 1 then
    Except.error (FenError.rookCountForCastling 'k')
  else if cr.getD 3 false ∧ count_piece (rangeExcl 56 bk) ⟨PieceType.R, false⟩ content ≠ 1 then
    Except.error (FenError.rookCountForCastling 'q')
  else Except.ok ()

/-- The en-passant field of `Board::from_fen`: byte length 1..=2, `"-"` or a
square name with file `a`..`h` and rank `3` or `6`.  (Rust unwraps the second
character after the byte-length test; on a single multibyte character that
unwrap panics, modelled here as the invalid-field error.) -/
def parse_ep_field (cs : List Char) : Except FenError (Option Nat) :=
  let lenEp := utf8Len cs
  if ¬(1 ≤ lenEp ∧ lenEp ≤ 2) then Except.error (FenError.epFieldLen lenEp)
  else if cs = ['-'] then Except.ok none
  else
    match cs with
    | [file, rank] =>
      if ('a' ≤ file ∧ file ≤ 'h') ∧ (rank = '3' ∨ rank = '6') then
        Except.ok (some (sq_to_idx file rank))
      else Except.error (FenError.badEpField cs)
    | _ => Except.error (FenError.badEpField cs)

/-- Rust `str::parse::<usize>`: an optional leading `'+'` followed by at least
one ASCII digit (machine-width overflow is not modelled; `Board::from_fen`
bounds the accepted values anyway). -/
def parse_usize (s : List Char) : Option Nat :=
  let digits := match s with
    | '+' :: t => t
    | _ => s
  if digits ≠ [] ∧ digits.all Char.isDigit then
    some (digits.foldl (fun a c => a * 10 + (c.toNat - 48)) 0)
  else none

/-- `src/lib.rs` `Board::from_fen`: six space-separated fields — board data,
side to move, castling rights, en passant target, halfmove clock (≤ 150),
fullmove number (≥ 1). -/
def board_from_fen (fen : List Char) : Except FenError Board :=
  match split_on ' ' fen with
  | [f0, f1, f2, f3, f4, f5] =>
    match parse_board_field f0 with
    | Except.error e => Except.error e
    | Except.ok st =>
      match parse_side_field f1 with
      | Except.error e => Except.error e
      | Except.ok side_to_move =>
        match parse_castling_field f2 st.wkPos st.bkPos with
        | Except.error e => Except.error e
        | Except.ok castling_rights =>
          match check_castling_rooks castling_rights st.wkPos st.bkPos st.content with
          | Except.error e => Except.error e
          | Except.ok _ =>
            match parse_ep_field f3 with
            | Except.error e => Except.error e
            | Except.ok en_passant_target =>
              match parse_usize f4 with
              | none => Except.error (FenError.badHalfmove f4)
              | some halfmove_clock =>
                if 150 < halfmove_clock then
                  Except.error (FenError.halfmoveTooBig halfmove_clock)
                else
                  match parse_usize f5 with
                  | none => Except.error (FenError.badFullmove f5)
                  | some fullmove_number =>
                    if fullmove_number < 1 then Except.error FenError.fullmoveZero
                    else
                      Except.ok ⟨st.content, side_to_move, castling_rights,
                        en_passant_target, halfmove_clock, fullmove_number⟩
  | fs => Except.error (FenError.fieldCount fs.length)

/-- `src/lib.rs` `Board::to_fen`: board data, side letter, plain castling
letters in `KQkq` order (or `-`), en passant square (or `-`), and the two
clocks, space-separated. -/
def board_to_fen (b : Board) : List Char :=
  let board_data := encode_content b.content
  let active_color : List Char := if b.side_to_move then ['w'] else ['b']
  let castling :=
    (if b.castling_rights.getD 0 false then ['K'] else []) ++
    (if b.castling_rights.getD 1 false then ['Q'] else []) ++
    (if b.castling_rights.getD 2 false then ['k'] else []) ++
    (if b.castling_rights.getD 3 false then ['q'] else [])
  let castling := if castling.isEmpty then ['-'] else castling
  let ep : List Char :=
    match b.en_passant_target with
    | some target => [(idx_to_sq target).1, (idx_to_sq target).2]
    | none => ['-']
  join_sep ' '
    [board_data, active_color, castling, ep,
      nat_chars b.halfmove_clock, nat_chars b.fullmove_number]

/-- The white king occupant. -/
def WKocc : Occupant :=
  Occupant.piece ⟨PieceType.K, true⟩

/-- The black king occupant. -/
def BKocc : Occupant :=
  Occupant.piece ⟨PieceType.K, false⟩

/-- A token of a FEN rank string: a run of empty squares (emitted as one
digit) or a piece letter.  Used to reason about the run-length codec. -/
inductive FenToken where
  | gap (n : Nat)
  | pc (p : Piece)
deriving DecidableEq, Repr

/-- The character a token is emitted as. -/
def tokChars : FenToken → List Char
  | FenToken.gap n => [Char.ofNat (48 + n)]
  | FenToken.pc p => [char_of_piece p]

/-- The token decomposition of a rank, with pending empty count `e`; mirrors
`encode_rank_go`. -/
def rank_tokens : List Occupant → Nat → List FenToken
  | [], e => if 0 < e then [FenToken.gap e] else []
  | Occupant.piece p :: rest, e =>
    (if 0 < e then [FenToken.gap e] else []) ++ FenToken.pc p :: rank_tokens rest 0
  | Occupant.empty :: rest, e => rank_tokens rest (e + 1)

/-- The number of squares a token accounts for. -/
def tok_size : FenToken → Nat
  | FenToken.gap n => n
  | FenToken.pc _ => 1

/-- The number of squares a token list accounts for. -/
def toks_size (l : List FenToken) : Nat :=
  (l.map tok_size).sum

/-- The squares a token list denotes, in board order. -/
def tokens_expand (l : List FenToken) : List Occupant :=
  l.flatMap fun t =>
    match t with
    | FenToken.gap n => List.replicate n Occupant.empty
    | FenToken.pc p => [Occupant.piece p]

/-- Build 64-square content from a placement list (empty board, then set each
square). -/
def mkContent (ps : List (Nat × Piece)) : List Occupant :=
  ps.foldl (fun c ip => c.set ip.1 (Occupant.piece ip.2)) (List.replicate 64 Occupant.empty)

/-- The position of spec Scenario B, FEN `1k6/8/1K6/2Pp4/8/8/8/8 w - d6 0 2`:
black king b8, white king b6, white pawn c5, black pawn d5, en passant target
d6. -/
def posScenarioB : Position :=
  ⟨mkContent [(57, ⟨PieceType.K, false⟩), (41, ⟨PieceType.K, true⟩),
      (34, ⟨PieceType.P, true⟩), (35, ⟨PieceType.P, false⟩)],
    true, [none, none, none, none], some 43⟩

/-- A `Position` value with a kingside castling right whose recorded rook
square is g3 (off the back rank): white king h1, white rook g3, black rook g8,
black king a8, white to move.  Every `Position` field is public in
`src/position.rs`, so this value is constructible by any caller. -/
def posC1 : Position :=
  ⟨mkContent [(7, ⟨PieceType.K, true⟩), (22, ⟨PieceType.R, true⟩),
      (62, ⟨PieceType.R, false⟩), (56, ⟨PieceType.K, false⟩)],
    true, [some 22, none, none, none], none⟩

/-- The kingside castling move of `posC1`. -/
def moveC1 : Move :=
  ⟨7, 6, some SpecialMoveType.castlingKingside⟩

/-- FEN `4k3/8/8/8/8/8/8/RN2K3 w Q - 0 1`: white king e1, white rook a1,
white knight b1 (a square strictly between the king and the recorded rook),
black king e8, white holds the queenside castling right recorded at a1. -/
def posC4 : Position :=
  ⟨mkContent [(60, ⟨PieceType.K, false⟩), (0, ⟨PieceType.R, true⟩),
      (1, ⟨PieceType.N, true⟩), (4, ⟨PieceType.K, true⟩)],
    true, [none, some 0, none, none], none⟩

/-- The queenside castling move of `posC4`. -/
def moveC4 : Move :=
  ⟨4, 2, some SpecialMoveType.castlingQueenside⟩

/-- The position reached in the `to_fen_castling_rights_on_rook_interruption`
test of `src/test.rs` (board `rr2k3/8/8/8/8/8/8/7K`, black queenside right on
the a8 rook, no black kingside right): black rooks a8 and b8, black king e8,
white king h1. -/
def posC7 : Position :=
  ⟨mkContent [(56, ⟨PieceType.R, false⟩), (57, ⟨PieceType.R, false⟩),
      (60, ⟨PieceType.K, false⟩), (7, ⟨PieceType.K, true⟩)],
    true, [none, none, none, some 56], none⟩

/-- Like `posC7` but with a black kingside right too (rook h8 recorded in the
kingside slot), so the black-queenside branch of `Position::to_fen` does not
panic and its output can be observed. -/
def posC7b : Position :=
  ⟨mkContent [(56, ⟨PieceType.R, false⟩), (57, ⟨PieceType.R, false⟩),
      (60, ⟨PieceType.K, false⟩), (63, ⟨PieceType.R, false⟩),
      (7, ⟨PieceType.K, true⟩)],
    true, [none, none, some 63, some 56], none⟩

/-- King bookkeeping invariant of the board-data loop of `Board::from_fen`:
the seen flag counts the kings of that color placed so far, and a seen king
reads back at its recorded position. -/
def KingInv (content : List Occupant) (seen : Bool) (pos : Nat) (k : Occupant) : Prop :=
  if seen then content.count k = 1 ∧ getSq content pos = k
  else content.count k = 0

/-- Invariant of the board-data loop of `Board::from_fen` after `k` of the 64
squares have been accounted for: fixed content length, pointer position, every
not-yet-reached cell still empty, and king bookkeeping for both colors. -/
def GoodState (st : BoardParse) (k : Nat) : Prop :=
  st.content.length = 64 ∧ st.ptr = 63 - k ∧ k ≤ 64 ∧
  (∀ i, i < 64 - k → getSq st.content i = Occupant.empty) ∧
  KingInv st.content st.wkSeen st.wkPos (Occupant.piece ⟨PieceType.K, true⟩) ∧
  KingInv st.content st.bkSeen st.bkPos (Occupant.piece ⟨PieceType.K, false⟩)

/-- A small board for exercising the FEN round trip: kings on e1 and e8,
white to move, no castling rights, no en passant target. -/
def boardKk : Board :=
  ⟨mkContent [(4, ⟨PieceType.K, true⟩), (60, ⟨PieceType.K, false⟩)],
    true, [false, false, false, false], none, 0, 1⟩

/-- The FEN of `boardKk`, `4k3/8/8/8/8/8/8/4K3 w - - 0 1`, as a character
list. -/
def fenKk : List Char :=
  ['4', 'k', '3', '/', '8', '/', '8', '/', '8', '/', '8', '/', '8', '/', '8',
    '/', '4', 'K', '3', ' ', 'w', ' ', '-', ' ', '-', ' ', '0', ' ', '1']

end Rschess

namespace Rschess

/-! ## Theorems -/

/-- C9: `sq_to_idx` and `idx_to_sq` are exact inverses on `[0,64)` and on the
file letters `a`..`h` × rank digits `1`..`8`; a1 is index 0, h8 is index 63,
the file ordinal is `idx % 8` and the rank ordinal is `idx / 8`. -/
theorem sq_idx_inverse :
    (∀ idx : Fin 64,
      sq_to_idx (idx_to_sq idx.val).1 (idx_to_sq idx.val).2 = idx.val ∧
      (idx_to_sq idx.val).1.toNat = idx.val % 8 + 97 ∧
      (idx_to_sq idx.val).2.toNat = idx.val / 8 + 49) ∧
    (∀ f ∈ ['a', 'b', 'c', 'd', 'e', 'f', 'g', 'h'],
      ∀ r ∈ ['1', '2', '3', '4', '5', '6', '7', '8'],
        idx_to_sq (sq_to_idx f r) = (f, r)) ∧
    sq_to_idx 'a' '1' = 0 ∧ sq_to_idx 'h' '8' = 63 := by
  decide

/-- Witness for C9 at the concrete square f5 (index 37). -/
theorem sq_idx_inverse_witness :
    idx_to_sq (sq_to_idx 'f' '5') = ('f', '5') :=
  sq_idx_inverse.2.1 'f' (by decide) '5' (by decide)

/-- C10 (the code): `Move::from_uci` panics (modelled as `none`) on the
two-character input `"éé"`, whose UTF-8 byte length is 4: the length check
passes, and unwrapping the third character fails. -/
theorem from_uci_panics_on_multibyte :
    from_uci [Char.ofNat 233, Char.ofNat 233] = none ∧
    utf8Len [Char.ofNat 233, Char.ofNat 233] = 4 ∧
    [Char.ofNat 233, Char.ofNat 233].length = 2 :=
  ⟨rfl, by decide, by decide⟩

/-- C8 counterexample: `"e2e4é"` is five *characters* long, so by the claim it
must not fail with a length error (its fifth character should draw an
invalid-piece error); but its UTF-8 byte length is 7, so the code returns the
length error. -/
theorem from_uci_length_counterexample :
    (['e', '2', 'e', '4', Char.ofNat 233] : List Char).length = 5 ∧
    from_uci ['e', '2', 'e', '4', Char.ofNat 233] =
      some (Except.error InvalidUciError.length) :=
  ⟨by decide, rfl⟩

/-- C8 as amended: `Move::from_uci` fails with a length error exactly when the
UTF-8 *byte* length is not 4 or 5; it panics (`none`) exactly when the byte
length is 4 or 5 but fewer than four characters exist; otherwise, in order:
an invalid-square error naming the first bad square pair, an invalid-piece
error naming a fifth character that is no piece letter or maps to the king
type, and on success the `Unclear` tag with no fifth character or the
`Promotion` tag with the decoded piece type. -/
theorem from_uci_spec (cs : List Char) :
    (from_uci cs = some (Except.error InvalidUciError.length) ↔
      ¬(utf8Len cs = 4 ∨ utf8Len cs = 5)) ∧
    (from_uci cs = none ↔ (utf8Len cs = 4 ∨ utf8Len cs = 5) ∧ cs.length < 4) ∧
    (∀ f0 r0 f1 r1 rest, cs = f0 :: r0 :: f1 :: r1 :: rest →
      (utf8Len cs = 4 ∨ utf8Len cs = 5) →
      ((¬(isFileChar f0 = true ∧ isRankChar r0 = true) →
        from_uci cs = some (Except.error (InvalidUciError.invalidSquareName f0 r0))) ∧
       ((isFileChar f0 = true ∧ isRankChar r0 = true) →
        ¬(isFileChar f1 = true ∧ isRankChar r1 = true) →
        from_uci cs = some (Except.error (InvalidUciError.invalidSquareName f1 r1))) ∧
       ((isFileChar f0 = true ∧ isRankChar r0 = true) →
        (isFileChar f1 = true ∧ isRankChar r1 = true) →
        ((∀ p, rest = [p] →
           (pieceTypeOfChar p = none ∨ pieceTypeOfChar p = some PieceType.K) →
           from_uci cs = some (Except.error (InvalidUciError.invalidPieceType p))) ∧
         (∀ p pt, rest = [p] → pieceTypeOfChar p = some pt → pt ≠ PieceType.K →
           from_uci cs = some (Except.ok
             ⟨sq_to_idx f0 r0, sq_to_idx f1 r1, some (SpecialMoveType.promotion pt)⟩)) ∧
         (rest = [] →
           from_uci cs = some (Except.ok
             ⟨sq_to_idx f0 r0, sq_to_idx f1 r1, some SpecialMoveType.unclear⟩)))))) := by
  refine ⟨?_, ?_, ?_⟩
  · by_cases hlen : utf8Len cs = 4 ∨ utf8Len cs = 5
    · rw [from_uci, if_neg (by tauto)]
      simp only [hlen, not_true, iff_false]
      rcases cs with _ | ⟨a, _ | ⟨b, _ | ⟨c, _ | ⟨d, rest⟩⟩⟩⟩
      · simp [from_uci_body]
      · simp [from_uci_body]
      · simp [from_uci_body]
      · simp [from_uci_body]
      · rw [from_uci_body]
        intro h
        rw [Option.some_inj] at h
        split at h
        · simp at h
        · split at h
          · simp at h
          · simp only [] at h
            split at h
            · split at h
              · simp at h
              · split at h <;> simp at h
            · simp at h
    · rw [from_uci, if_pos (by tauto)]
      simp [hlen]
  · by_cases hlen : utf8Len cs = 4 ∨ utf8Len cs = 5
    · rw [from_uci, if_neg (by tauto)]
      rcases cs with _ | ⟨a, _ | ⟨b, _ | ⟨c, _ | ⟨d, rest⟩⟩⟩⟩
      · simp [from_uci_body, hlen]
      · simp [from_uci_body, hlen]
      · simp [from_uci_body, hlen]
      · simp [from_uci_body, hlen]
      · rw [from_uci_body]
        simp only [List.length_cons]
        constructor
        · intro h
          exact absurd h (by simp)
        · rintro ⟨-, h4⟩
          omega
    · rw [from_uci, if_pos (by tauto)]
      simp [hlen]
  · rintro f0 r0 f1 r1 rest rfl hlen
    rw [from_uci, if_neg (by tauto), from_uci_body]
    refine ⟨?_, ?_, ?_⟩
    · intro hbad
      have : (!(isFileChar f0 && isRankChar r0)) = true := by
        rcases hf : isFileChar f0 <;> rcases hr : isRankChar r0 <;> simp_all
      rw [if_pos this]
    · rintro ⟨hf0, hr0⟩ hbad
      rw [if_neg (by simp [hf0, hr0])]
      have : (!(isFileChar f1 && isRankChar r1)) = true := by
        rcases hf : isFileChar f1 <;> rcases hr : isRankChar r1 <;> simp_all
      rw [if_pos this]
    · rintro ⟨hf0, hr0⟩ ⟨hf1, hr1⟩
      rw [if_neg (by simp [hf0, hr0]), if_neg (by simp [hf1, hr1])]
      refine ⟨?_, ?_, ?_⟩
      · rintro p rfl hpt
        rcases hpt with hpt | hpt <;> simp [List.head?, hpt]
      · rintro p pt rfl hpt hK
        simp [List.head?, hpt, hK]
      · rintro rfl
        simp [List.head?]

/-- Witness for C8's amended theorem: decoding `"e7e8q"` through the theorem
yields the promotion move. -/
theorem from_uci_spec_witness :
    from_uci ['e', '7', 'e', '8', 'q'] = some (Except.ok
      ⟨sq_to_idx 'e' '7', sq_to_idx 'e' '8', some (SpecialMoveType.promotion PieceType.Q)⟩) :=
  (((from_uci_spec ['e', '7', 'e', '8', 'q']).2.2 'e' '7' 'e' '8' ['q'] rfl
    (by decide)).2.2 (by decide) (by decide)).2.1 'q' PieceType.Q rfl (by decide) (by decide)

/-- C2: every move returned by `gen_non_illegal_moves` is an element of the
list returned by `gen_pseudolegal_moves` on the same position. -/
theorem legal_subset_pseudolegal (p : Position) (m : Move)
    (h : m ∈ gen_non_illegal_moves p) : m ∈ gen_pseudolegal_moves p := by
  rw [gen_non_illegal_moves] at h
  exact List.mem_of_mem_filter h

/-- Witness for C2: the en passant capture of Scenario B is legal, hence
pseudolegal. -/
theorem legal_subset_pseudolegal_witness :
    (⟨34, 43, some SpecialMoveType.enPassant⟩ : Move) ∈ gen_pseudolegal_moves posScenarioB :=
  legal_subset_pseudolegal posScenarioB _ (by decide)

/-- C1 counterexample: on `posC1` (a `Position` whose kingside slot records a
rook on g3), the castling move h1→g1 is returned by `gen_non_illegal_moves`,
yet after applying it (`change_content` relocates the recorded rook to f1,
emptying g3) the black rook on g8 pseudolegally captures the white king on
g1 — the transit-square filter checked only squares g1..h1 in the *pre-move*
content, where g3 still blocked the g-file. -/
theorem king_safety_counterexample :
    moveC1 ∈ gen_non_illegal_moves posC1 ∧
    king_capture_pseudolegal
      (change_content posC1.content moveC1 posC1.castling_rights) (!posC1.side) = true := by
  constructor
  · decide
  · decide

/-- C1 as amended: every move returned by `gen_non_illegal_moves` passes the
legality filter — a non-castling move leaves the mover's king not
pseudolegally capturable in the changed content, while a castling move has
every square between its source and destination (inclusive) uncontrolled by
the opponent in the pre-move position. -/
theorem king_safety_filter (p : Position) (m : Move)
    (h : m ∈ gen_non_illegal_moves p) :
    ((m.special = some SpecialMoveType.castlingKingside ∨
      m.special = some SpecialMoveType.castlingQueenside) →
      ∀ sq, min m.src m.dest ≤ sq → sq ≤ max m.src m.dest →
        controls_square p sq (!p.side) = false) ∧
    (¬(m.special = some SpecialMoveType.castlingKingside ∨
       m.special = some SpecialMoveType.castlingQueenside) →
      king_capture_pseudolegal (change_content p.content m p.castling_rights) (!p.side)
        = false) := by
  rw [gen_non_illegal_moves] at h
  have hf : legal_filter p m = true := List.of_mem_filter h
  rw [legal_filter] at hf
  constructor
  · intro hc sq h1 h2
    rcases hc with hc | hc <;>
    · rw [hc] at hf
      have := (List.all_eq_true.mp hf) sq
        (by
          rw [rangeIncl, List.mem_range'_1]
          refine ⟨h1, ?_⟩
          have : min m.src m.dest ≤ max m.src m.dest := min_le_max
          omega)
      simpa using this
  · intro hnc
    match hm : m.special with
    | some SpecialMoveType.castlingKingside => exact absurd (Or.inl hm) hnc
    | some SpecialMoveType.castlingQueenside => exact absurd (Or.inr hm) hnc
    | none => rw [hm] at hf; simpa using hf
    | some (SpecialMoveType.promotion pt) => rw [hm] at hf; simpa using hf
    | some SpecialMoveType.enPassant => rw [hm] at hf; simpa using hf
    | some SpecialMoveType.unclear => rw [hm] at hf; simpa using hf

/-- Witness for C1's amended theorem: the pawn push c5–c6 of Scenario B is
legal and indeed leaves the white king not pseudolegally capturable. -/
theorem king_safety_filter_witness :
    king_capture_pseudolegal
      (change_content posScenarioB.content ⟨34, 42, none⟩ posScenarioB.castling_rights)
      (!posScenarioB.side) = false :=
  (king_safety_filter posScenarioB ⟨34, 42, none⟩ (by decide)).2 (by simp)

/-- C4 (the code): in `posC4` (FEN `4k3/8/8/8/8/8/8/RN2K3 w Q - 0 1`) the
square b1, strictly between the king e1 and the recorded rook a1, holds a
knight, yet the queenside castling move e1→c1 is pseudolegally generated (and
even passes the legality filter): the generator only inspects the squares
from the king's destination c1 up to the king, omitting b1. -/
theorem castling_skips_rook_path_square :
    getSq posC4.content 1 = Occupant.piece ⟨PieceType.N, true⟩ ∧
    posC4.castling_rights.getD 1 none = some 0 ∧
    moveC4 ∈ gen_pseudolegal_moves posC4 ∧
    moveC4 ∈ gen_non_illegal_moves posC4 := by
  refine ⟨by decide, by decide, by decide, by decide⟩

/-- C7 (the code): serializing castling rights in `Position::to_fen`, the
black-queenside branch reads `castling_rights[2]` — the black-*kingside*
slot — instead of its own slot 3.  On `posC7` (the board of the
`to_fen_castling_rights_on_rook_interruption` test in `src/test.rs`, which
expects the FEN `rr2k3/8/8/8/8/8/8/7K w a - 1 3`) slot 2 is absent and the
code panics (`none`); on `posC7b` (kingside slot recording the h8 rook) it
emits the kingside rook's file letter `h` where the recorded queenside rook
square a8 demands `a`. -/
theorem to_fen_black_queenside_slot_bug :
    posC7.castling_rights.getD 3 none = some 56 ∧
    (idx_to_sq 56).1 = 'a' ∧
    pos_to_fen posC7 = none ∧
    posC7b.castling_rights.getD 3 none = some 56 ∧
    pos_castling_field posC7b = some ['k', 'h'] := by
  refine ⟨by decide, by decide, rfl, by decide, rfl⟩

/-- C5: `is_checkmate` holds exactly when some side is in check (some king is
pseudolegally capturable by the other side) and the legal-move list is empty;
`is_stalemate` exactly when no side is in check and the legal-move list is
empty; `checked_side` is `none` exactly when neither king is capturable, and
whenever it returns a side, that side's king is pseudolegally capturable by
the other side. -/
theorem check_status_spec (p : Position) :
    (is_checkmate p = true ↔
      (king_capture_pseudolegal p.content false = true ∨
       king_capture_pseudolegal p.content true = true) ∧
      gen_non_illegal_moves p = []) ∧
    (is_stalemate p = true ↔
      ¬(king_capture_pseudolegal p.content false = true ∨
        king_capture_pseudolegal p.content true = true) ∧
      gen_non_illegal_moves p = []) ∧
    (checked_side p = none ↔
      king_capture_pseudolegal p.content false = false ∧
      king_capture_pseudolegal p.content true = false) ∧
    (∀ s, checked_side p = some s →
      king_capture_pseudolegal p.content (!s) = true) := by
  have hcheck : is_check p = true ↔
      (king_capture_pseudolegal p.content false = true ∨
       king_capture_pseudolegal p.content true = true) := by
    rw [is_check, checked_side]
    rcases hb : king_capture_pseudolegal p.content false <;>
      rcases hw : king_capture_pseudolegal p.content true <;> simp
  refine ⟨?_, ?_, ?_, ?_⟩
  · rw [is_checkmate]
    rw [Bool.and_eq_true, List.isEmpty_iff, hcheck]
  · rw [is_stalemate]
    rw [Bool.and_eq_true, List.isEmpty_iff, Bool.not_eq_true', ← Bool.not_eq_true, hcheck]
  · rw [checked_side]
    rcases hb : king_capture_pseudolegal p.content false <;>
      rcases hw : king_capture_pseudolegal p.content true <;> simp
  · intro s hs
    rw [checked_side] at hs
    rcases hb : king_capture_pseudolegal p.content false <;>
      rcases hw : king_capture_pseudolegal p.content true <;>
        rw [hb, hw] at hs <;> simp at hs <;> subst hs <;> simp [hb, hw]

/-- Witness for C5 at Scenario B's position (no side in check, legal moves
exist, so not stalemate): applies the theorem at a concrete position. -/
theorem check_status_spec_witness :
    checked_side posScenarioB = none ↔
      king_capture_pseudolegal posScenarioB.content false = false ∧
      king_capture_pseudolegal posScenarioB.content true = false :=
  (check_status_spec posScenarioB).2.2.1

/-- Removing the first knight yields the empty list exactly for the empty list
and the singleton knight list. -/
theorem remove_first_knight_eq_nil (l : List Material) :
    remove_first_knight l = [] ↔ l = [] ∨ l = [Material.knight] := by
  match l with
  | [] => simp [remove_first_knight]
  | Material.knight :: t => simp [remove_first_knight]
  | Material.bishop c :: t => simp [remove_first_knight]
  | Material.other :: t => simp [remove_first_knight]

/-- If every element of a nonempty material list is a bishop on complex `c`,
the first-bishop scan finds `c`. -/
theorem first_bishop_complex_of_all (l : List Material) (c : Bool)
    (hne : l ≠ []) (hall : ∀ m ∈ l, m = Material.bishop c) :
    first_bishop_complex l = some c := by
  match l with
  | [] => exact absurd rfl hne
  | m :: t =>
    have := hall m (List.mem_cons_self m t)
    subst this
    rfl

/-- C6: `is_insufficient_material` holds exactly when the non-king material is
empty, is exactly one knight, or is a nonempty collection of bishops all on
one color complex; in particular any queen, rook or pawn (recorded as
`Material.other`) or any other combination makes it false. -/
theorem insufficient_material_iff (p : Position) :
    is_insufficient_material p = true ↔
      (count_material p = [] ∨ count_material p = [Material.knight] ∨
        (count_material p ≠ [] ∧
          ∃ c, ∀ m ∈ count_material p, m = Material.bishop c)) := by
  rw [is_insufficient_material]
  set l := count_material p with hl
  clear_value l
  by_cases h1 : l = []
  · simp [h1]
  by_cases h2 : remove_first_knight l = []
  · have : l = [Material.knight] := by
      rcases (remove_first_knight_eq_nil l).mp h2 with h | h
      · exact absurd h h1
      · exact h
    simp [this, remove_first_knight]
  · have e1 : ¬(l.isEmpty = true) := by simpa [List.isEmpty_iff] using h1
    have e2 : ¬((remove_first_knight l).isEmpty = true) := by
      simpa [List.isEmpty_iff] using h2
    rw [if_neg e1, if_neg e2]
    cases hfb : first_bishop_complex l with
    | none =>
      simp only [Bool.false_eq_true, false_iff]
      push_neg
      refine ⟨h1, ?_, ?_⟩
      · intro hk
        exact h2 ((remove_first_knight_eq_nil l).mpr (Or.inr hk))
      · intro _ c
        by_contra hno
        push_neg at hno
        rw [first_bishop_complex_of_all l c h1 hno] at hfb
        exact Option.noConfusion hfb
    | some c =>
      rw [List.isEmpty_iff, List.filter_eq_nil_iff]
      constructor
      · intro hall
        refine Or.inr (Or.inr ⟨h1, c, fun m hm => ?_⟩)
        have := hall m hm
        simpa using this
      · intro h
        rcases h with h | h | ⟨_, c2, hall⟩
        · exact absurd h h1
        · exact absurd ((remove_first_knight_eq_nil l).mpr (Or.inr h)) h2
        · have : first_bishop_complex l = some c2 :=
            first_bishop_complex_of_all l c2 h1 hall
          rw [hfb] at this
          have hcc : c = c2 := by
            injection this
          subst hcc
          intro m hm
          simp [hall m hm]

/-! ### Run-length codec lemmas (toward the FEN round trip, C3) -/

theorem encode_rank_go_eq_tokens : ∀ (l : List Occupant) (e : Nat),
    encode_rank_go l e = (rank_tokens l e).flatMap tokChars
  | [], e => by
    by_cases h : 0 < e <;> simp [encode_rank_go, rank_tokens, h, tokChars]
  | Occupant.piece p :: rest, e => by
    by_cases h : 0 < e <;>
      simp [encode_rank_go, rank_tokens, h, tokChars, encode_rank_go_eq_tokens rest 0]
  | Occupant.empty :: rest, e => by
    simp [encode_rank_go, rank_tokens, encode_rank_go_eq_tokens rest (e + 1)]

theorem tokens_expand_rank_tokens : ∀ (l : List Occupant) (e : Nat),
    tokens_expand (rank_tokens l e) = List.replicate e Occupant.empty ++ l
  | [], e => by
    by_cases h : 0 < e <;> simp [rank_tokens, tokens_expand, h] <;> omega
  | Occupant.piece p :: rest, e => by
    have ih := tokens_expand_rank_tokens rest 0
    simp only [tokens_expand] at ih ⊢
    by_cases h : 0 < e <;> simp [rank_tokens, h, ih] <;> omega
  | Occupant.empty :: rest, e => by
    have ih := tokens_expand_rank_tokens rest (e + 1)
    simp only [tokens_expand] at ih ⊢
    simp [rank_tokens, ih, List.replicate_succ']

theorem toks_size_rank_tokens : ∀ (l : List Occupant) (e : Nat),
    toks_size (rank_tokens l e) = e + l.length
  | [], e => by
    by_cases h : 0 < e <;> simp [rank_tokens, toks_size, tok_size, h] <;> omega
  | Occupant.piece p :: rest, e => by
    have ih := toks_size_rank_tokens rest 0
    simp only [toks_size] at ih ⊢
    by_cases h : 0 < e <;> simp [rank_tokens, h, tok_size] at ih ⊢ <;> omega
  | Occupant.empty :: rest, e => by
    have ih := toks_size_rank_tokens rest (e + 1)
    simp only [toks_size] at ih ⊢
    simp [rank_tokens] at ih ⊢
    omega

theorem rank_tokens_gap_bounds : ∀ (l : List Occupant) (e : Nat) (n : Nat),
    FenToken.gap n ∈ rank_tokens l e → 1 ≤ n ∧ n ≤ e + l.length
  | [], e, n => by
    by_cases h : 0 < e <;> simp [rank_tokens, h]
    rintro rfl
    omega
  | Occupant.piece p :: rest, e, n => by
    by_cases h : 0 < e <;> simp [rank_tokens, h]
    · rintro (rfl | hmem)
      · simp; omega
      · have := rank_tokens_gap_bounds rest 0 n hmem
        simp at this ⊢
        omega
    · intro hmem
      have := rank_tokens_gap_bounds rest 0 n hmem
      simp at this ⊢
      omega
  | Occupant.empty :: rest, e, n => by
    intro hmem
    have := rank_tokens_gap_bounds rest (e + 1) n (by simpa [rank_tokens] using hmem)
    simp at this ⊢
    omega

theorem digit_char_facts (n : Nat) (h1 : 1 ≤ n) (h8 : n ≤ 8) :
    (Char.ofNat (48 + n)).isDigit = true ∧ (Char.ofNat (48 + n)).toNat - 48 = n ∧
    Char.ofNat (48 + n) ≠ ' ' ∧ Char.ofNat (48 + n) ≠ '/' := by
  interval_cases n <;> exact ⟨by decide, by decide, by decide, by decide⟩

theorem char_of_piece_facts (p : Piece) :
    (char_of_piece p).isDigit = false ∧ piece_of_char (char_of_piece p) = some p ∧
    char_of_piece p ≠ ' ' ∧ char_of_piece p ≠ '/' := by
  rcases p with ⟨pt, c⟩
  rcases pt <;> rcases c <;> exact ⟨by decide, by decide, by decide, by decide⟩

theorem replicate_set (q : Nat) (a x : Occupant) :
    (List.replicate (q + 1) a).set q x = List.replicate q a ++ [x] := by
  induction q with
  | zero => rfl
  | succ n ih => simpa [List.replicate_succ, List.set] using ih

theorem toks_size_append (l1 l2 : List FenToken) :
    toks_size (l1 ++ l2) = toks_size l1 + toks_size l2 := by
  simp [toks_size]

theorem tokens_expand_append (l1 l2 : List FenToken) :
    tokens_expand (l1 ++ l2) = tokens_expand l1 ++ tokens_expand l2 := by
  simp [tokens_expand]

theorem tokens_expand_length : ∀ l : List FenToken,
    (tokens_expand l).length = toks_size l
  | [] => rfl
  | t :: ts => by
    have ih := tokens_expand_length ts
    simp only [tokens_expand, toks_size] at ih ⊢
    rcases t with n | p <;> simp [tok_size] at ih ⊢ <;> omega


theorem toks_size_pos (ts : List FenToken) (hne : ts ≠ [])
    (hgap : ∀ n, FenToken.gap n ∈ ts → 1 ≤ n) : 1 ≤ toks_size ts := by
  match ts with
  | [] => exact absurd rfl hne
  | t :: ts2 =>
    rcases t with n | p
    · have h1 := hgap n (List.mem_cons_self _ _)
      simp only [toks_size, List.map_cons, tok_size, List.sum_cons]
      omega
    · simp only [toks_size, List.map_cons, tok_size, List.sum_cons]
      omega

set_option maxHeartbeats 1000000 in
theorem parse_tokens_ok (toks : List FenToken) : ∀ (rankn f q : Nat) (suf : List Occupant)
    (wkS : Bool) (wkP : Nat) (bkS : Bool) (bkP : Nat),
    (∀ n, FenToken.gap n ∈ toks → 1 ≤ n ∧ n ≤ 8) →
    f + toks_size toks ≤ 8 →
    toks_size toks ≤ q + 1 →
    (wkS = true → Occupant.piece ⟨PieceType.K, true⟩ ∉ tokens_expand toks) →
    (tokens_expand toks).count (Occupant.piece ⟨PieceType.K, true⟩) ≤ 1 →
    (bkS = true → Occupant.piece ⟨PieceType.K, false⟩ ∉ tokens_expand toks) →
    (tokens_expand toks).count (Occupant.piece ⟨PieceType.K, false⟩) ≤ 1 →
    parse_rank_chars rankn (toks.flatMap tokChars).reverse
        ⟨List.replicate (q + 1) Occupant.empty ++ suf, wkS, wkP, bkS, bkP, q⟩ f
      = Except.ok
        (⟨List.replicate (q + 1 - toks_size toks) Occupant.empty ++ tokens_expand toks ++ suf,
          wkS || decide (Occupant.piece ⟨PieceType.K, true⟩ ∈ tokens_expand toks),
          if Occupant.piece ⟨PieceType.K, true⟩ ∈ tokens_expand toks then
            q + 1 - toks_size toks
              + (tokens_expand toks).indexOf (Occupant.piece ⟨PieceType.K, true⟩)
          else wkP,
          bkS || decide (Occupant.piece ⟨PieceType.K, false⟩ ∈ tokens_expand toks),
          if Occupant.piece ⟨PieceType.K, false⟩ ∈ tokens_expand toks then
            q + 1 - toks_size toks
              + (tokens_expand toks).indexOf (Occupant.piece ⟨PieceType.K, false⟩)
          else bkP,
          q - toks_size toks⟩, f + toks_size toks) := by
  induction toks using List.reverseRecOn with
  | nil =>
    intro rankn f q suf wkS wkP bkS bkP hgap hf hq hwkS hwkC hbkS hbkC
    simp [tokens_expand, toks_size, parse_rank_chars]
  | append_singleton ts t ih =>
    intro rankn f q suf wkS wkP bkS bkP hgap hf hq hwkS hwkC hbkS hbkC
    have hchars : ((ts ++ [t]).flatMap tokChars).reverse
        = tokChars t ++ (ts.flatMap tokChars).reverse := by
      rcases t with n | p <;> simp [tokChars]
    have hgap2 : ∀ m, FenToken.gap m ∈ ts → 1 ≤ m ∧ m ≤ 8 := fun m hm =>
      hgap m (List.mem_append_left _ hm)
    rcases t with n | p
    · -- t = gap n
      obtain ⟨hn1, hn8⟩ := hgap n (List.mem_append_right _ (by simp))
      obtain ⟨hdig, htoNat, -, -⟩ := digit_char_facts n hn1 hn8
      have hsz : toks_size (ts ++ [FenToken.gap n]) = toks_size ts + n := by
        simp [toks_size_append, toks_size, tok_size]
      have hexp : tokens_expand (ts ++ [FenToken.gap n])
          = tokens_expand ts ++ List.replicate n Occupant.empty := by
        rw [tokens_expand_append]
        simp [tokens_expand]
      have hf8 : ¬(f = 8) := by rw [hsz] at hf; omega
      have hWrep : Occupant.piece (⟨PieceType.K, true⟩ : Piece)
          ∉ List.replicate n Occupant.empty := by
        intro hm
        exact absurd (List.eq_of_mem_replicate hm) (by simp)
      have hBrep : Occupant.piece (⟨PieceType.K, false⟩ : Piece)
          ∉ List.replicate n Occupant.empty := by
        intro hm
        exact absurd (List.eq_of_mem_replicate hm) (by simp)
      have hmW : Occupant.piece (⟨PieceType.K, true⟩ : Piece)
            ∈ tokens_expand ts ++ List.replicate n Occupant.empty
          ↔ Occupant.piece (⟨PieceType.K, true⟩ : Piece) ∈ tokens_expand ts := by
        rw [List.mem_append]
        exact or_iff_left hWrep
      have hmB : Occupant.piece (⟨PieceType.K, false⟩ : Piece)
            ∈ tokens_expand ts ++ List.replicate n Occupant.empty
          ↔ Occupant.piece (⟨PieceType.K, false⟩ : Piece) ∈ tokens_expand ts := by
        rw [List.mem_append]
        exact or_iff_left hBrep
      rw [hchars]
      simp only [tokChars, List.singleton_append]
      rw [parse_rank_chars]
      simp only []
      rw [if_neg hf8, if_pos hdig]
      simp only [htoNat]
      rw [if_neg (not_not_intro ⟨hn1, hn8⟩)]
      rw [if_neg (by rw [hsz] at hf; omega : ¬(8 - f < n))]
      by_cases hts : ts = []
      · subst hts
        simp only [List.flatMap_nil, List.reverse_nil]
        rw [parse_rank_chars]
        have hq2 : n ≤ q + 1 := by rw [hsz] at hq; simpa [toks_size] using hq
        have hrep : List.replicate (q + 1) Occupant.empty
            = List.replicate (q + 1 - n) Occupant.empty ++ List.replicate n Occupant.empty := by
          rw [← List.replicate_add]
          congr 1
          omega
        rw [hexp, hsz]
        simp only [tokens_expand, toks_size, List.flatMap_nil, List.nil_append,
          List.map_nil, List.sum_nil, Nat.zero_add]
        rw [hrep]
        simp [hWrep, hBrep, List.append_assoc]
      · have hsp := toks_size_pos ts hts (fun m hm => (hgap2 m hm).1)
        have hnq : n ≤ q := by rw [hsz] at hq; omega
        have hrep : List.replicate (q + 1) Occupant.empty ++ suf
            = List.replicate (q - n + 1) Occupant.empty
              ++ (List.replicate n Occupant.empty ++ suf) := by
          rw [← List.append_assoc, ← List.replicate_add]
          congr 2
          omega
        rw [hrep]
        have hcW : (List.replicate n Occupant.empty).count
            (Occupant.piece ⟨PieceType.K, true⟩) = 0 :=
          List.count_eq_zero.mpr hWrep
        have hcB : (List.replicate n Occupant.empty).count
            (Occupant.piece ⟨PieceType.K, false⟩) = 0 :=
          List.count_eq_zero.mpr hBrep
        rw [ih rankn (f + n) (q - n) (List.replicate n Occupant.empty ++ suf) wkS wkP bkS bkP
          hgap2
          (by rw [hsz] at hf; omega)
          (by rw [hsz] at hq; omega)
          (fun h hm => hwkS h (by rw [hexp]; exact List.mem_append_left _ hm))
          (by rw [hexp, List.count_append, hcW] at hwkC; omega)
          (fun h hm => hbkS h (by rw [hexp]; exact List.mem_append_left _ hm))
          (by rw [hexp, List.count_append, hcB] at hbkC; omega)]
        rw [hexp, hsz]
        simp only [hmW, hmB]
        rw [(by omega : q - n + 1 - toks_size ts = q + 1 - (toks_size ts + n)),
            (by omega : q - n - toks_size ts = q - (toks_size ts + n)),
            (by omega : f + n + toks_size ts = f + (toks_size ts + n))]
        by_cases hW : Occupant.piece (⟨PieceType.K, true⟩ : Piece) ∈ tokens_expand ts
        · by_cases hB : Occupant.piece (⟨PieceType.K, false⟩ : Piece) ∈ tokens_expand ts
          · simp only [if_pos hW, if_pos hB, List.indexOf_append_of_mem hW,
              List.indexOf_append_of_mem hB, List.append_assoc]
          · simp only [if_pos hW, if_neg hB, List.indexOf_append_of_mem hW,
              List.append_assoc]
        · by_cases hB : Occupant.piece (⟨PieceType.K, false⟩ : Piece) ∈ tokens_expand ts
          · simp only [if_neg hW, if_pos hB, List.indexOf_append_of_mem hB,
              List.append_assoc]
          · simp only [if_neg hW, if_neg hB, List.append_assoc]
    · -- t = pc p
      obtain ⟨hpd, hpo, -, -⟩ := char_of_piece_facts p
      have hsz : toks_size (ts ++ [FenToken.pc p]) = toks_size ts + 1 := by
        simp [toks_size_append, toks_size, tok_size]
      have hexp : tokens_expand (ts ++ [FenToken.pc p])
          = tokens_expand ts ++ [Occupant.piece p] := by
        rw [tokens_expand_append]
        simp [tokens_expand]
      have hf8 : ¬(f = 8) := by rw [hsz] at hf; omega
      have hq1 : toks_size ts ≤ q := by rw [hsz] at hq; omega
      have hset : (List.replicate (q + 1) Occupant.empty ++ suf).set q (Occupant.piece p)
          = List.replicate q Occupant.empty ++ ([Occupant.piece p] ++ suf) := by
        rw [List.set_append_left _ _ (by simp), replicate_set, List.append_assoc]
      rw [hchars]
      simp only [tokChars, List.singleton_append]
      rw [parse_rank_chars]
      simp only []
      rw [if_neg hf8, if_neg (by simp [hpd]), hpo]
      simp only []
      by_cases hPW : p = (⟨PieceType.K, true⟩ : Piece)
      · subst hPW
        rw [if_pos rfl]
        have hmemW : Occupant.piece (⟨PieceType.K, true⟩ : Piece)
            ∈ tokens_expand (ts ++ [FenToken.pc ⟨PieceType.K, true⟩]) := by
          rw [hexp]
          exact List.mem_append_right _ (by simp)
        have hws : wkS = false := by
          cases hw : wkS
          · rfl
          · exact absurd hmemW (hwkS hw)
        rw [hws]
        simp only [Bool.false_eq_true, if_false, hset]
        have hWts : Occupant.piece (⟨PieceType.K, true⟩ : Piece) ∉ tokens_expand ts := by
          intro hmem
          have h1 := List.count_pos_iff_mem.mpr hmem
          have h2 : (0 : Nat) < List.count (Occupant.piece (⟨PieceType.K, true⟩ : Piece))
              [Occupant.piece (⟨PieceType.K, true⟩ : Piece)] := by simp
          rw [hexp, List.count_append] at hwkC
          omega
        by_cases hts : ts = []
        · subst hts
          simp only [List.flatMap_nil, List.reverse_nil]
          rw [parse_rank_chars]
          rw [hexp, hsz]
          simp only [tokens_expand, toks_size, List.flatMap_nil, List.nil_append,
            List.map_nil, List.sum_nil, Nat.zero_add, List.append_assoc]
          simp
        · have hsp := toks_size_pos ts hts (fun m hm => (hgap2 m hm).1)
          have hq2 : 1 ≤ q := by omega
          rw [(by rw [Nat.sub_add_cancel hq2] :
            List.replicate q Occupant.empty = List.replicate (q - 1 + 1) Occupant.empty)]
          have hcBts : (tokens_expand ts).count (Occupant.piece ⟨PieceType.K, false⟩) ≤ 1 := by
            rw [hexp, List.count_append] at hbkC
            omega
          rw [ih rankn (f + 1) (q - 1) ([Occupant.piece ⟨PieceType.K, true⟩] ++ suf)
            true q bkS bkP hgap2
            (by rw [hsz] at hf; omega)
            (by omega)
            (fun _ => hWts)
            (by have := List.count_eq_zero.mpr hWts; omega)
            (fun h hm => hbkS h (by rw [hexp]; exact List.mem_append_left _ hm))
            hcBts]
          rw [hexp, hsz]
          have hmW2 : Occupant.piece (⟨PieceType.K, true⟩ : Piece)
              ∈ tokens_expand ts ++ [Occupant.piece ⟨PieceType.K, true⟩] :=
            List.mem_append_right _ (by simp)
          have hmB2 : Occupant.piece (⟨PieceType.K, false⟩ : Piece)
                ∈ tokens_expand ts ++ [Occupant.piece ⟨PieceType.K, true⟩]
              ↔ Occupant.piece (⟨PieceType.K, false⟩ : Piece) ∈ tokens_expand ts := by
            rw [List.mem_append]
            refine or_iff_left ?_
            simp
          rw [if_neg hWts, if_pos hmW2, List.indexOf_append_of_not_mem hWts,
            tokens_expand_length, List.indexOf_cons_self]
          rw [(by omega : q + 1 - (toks_size ts + 1) + (toks_size ts + 0) = q)]
          rw [decide_eq_true hmW2]
          simp only [hmB2, Bool.true_or, Bool.false_or,
            (by omega : q - 1 + 1 - toks_size ts = q + 1 - (toks_size ts + 1)),
            (by omega : q - 1 - toks_size ts = q - (toks_size ts + 1)),
            (by omega : f + 1 + toks_size ts = f + (toks_size ts + 1)),
            List.append_assoc]
          by_cases hB : Occupant.piece (⟨PieceType.K, false⟩ : Piece) ∈ tokens_expand ts
          · rw [if_pos hB, if_pos hB, List.indexOf_append_of_mem hB]
          · rw [if_neg hB, if_neg hB]
      · rw [if_neg hPW]
        by_cases hPB : p = (⟨PieceType.K, false⟩ : Piece)
        · subst hPB
          rw [if_pos rfl]
          have hmemB : Occupant.piece (⟨PieceType.K, false⟩ : Piece)
              ∈ tokens_expand (ts ++ [FenToken.pc ⟨PieceType.K, false⟩]) := by
            rw [hexp]
            exact List.mem_append_right _ (by simp)
          have hbs : bkS = false := by
            cases hb : bkS
            · rfl
            · exact absurd hmemB (hbkS hb)
          rw [hbs]
          simp only [Bool.false_eq_true, if_false, hset]
          have hBts : Occupant.piece (⟨PieceType.K, false⟩ : Piece) ∉ tokens_expand ts := by
            intro hmem
            have h1 := List.count_pos_iff_mem.mpr hmem
            have h2 : (0 : Nat) < List.count (Occupant.piece (⟨PieceType.K, false⟩ : Piece))
                [Occupant.piece (⟨PieceType.K, false⟩ : Piece)] := by simp
            rw [hexp, List.count_append] at hbkC
            omega
          by_cases hts : ts = []
          · subst hts
            simp only [List.flatMap_nil, List.reverse_nil]
            rw [parse_rank_chars]
            rw [hexp, hsz]
            simp only [tokens_expand, toks_size, List.flatMap_nil, List.nil_append,
              List.map_nil, List.sum_nil, Nat.zero_add, List.append_assoc]
            simp
          · have hsp := toks_size_pos ts hts (fun m hm => (hgap2 m hm).1)
            have hq2 : 1 ≤ q := by omega
            rw [(by rw [Nat.sub_add_cancel hq2] :
              List.replicate q Occupant.empty = List.replicate (q - 1 + 1) Occupant.empty)]
            have hcWts : (tokens_expand ts).count (Occupant.piece ⟨PieceType.K, true⟩) ≤ 1 := by
              rw [hexp, List.count_append] at hwkC
              omega
            rw [ih rankn (f + 1) (q - 1) ([Occupant.piece ⟨PieceType.K, false⟩] ++ suf)
              wkS wkP true q hgap2
              (by rw [hsz] at hf; omega)
              (by omega)
              (fun h hm => hwkS h (by rw [hexp]; exact List.mem_append_left _ hm))
              hcWts
              (fun _ => hBts)
              (by have := List.count_eq_zero.mpr hBts; omega)]
            rw [hexp, hsz]
            have hmB2 : Occupant.piece (⟨PieceType.K, false⟩ : Piece)
                ∈ tokens_expand ts ++ [Occupant.piece ⟨PieceType.K, false⟩] :=
              List.mem_append_right _ (by simp)
            have hmW2 : Occupant.piece (⟨PieceType.K, true⟩ : Piece)
                  ∈ tokens_expand ts ++ [Occupant.piece ⟨PieceType.K, false⟩]
                ↔ Occupant.piece (⟨PieceType.K, true⟩ : Piece) ∈ tokens_expand ts := by
              rw [List.mem_append]
              refine or_iff_left ?_
              simp
            rw [if_neg hBts, if_pos hmB2, List.indexOf_append_of_not_mem hBts,
              tokens_expand_length, List.indexOf_cons_self]
            rw [(by omega : q + 1 - (toks_size ts + 1) + (toks_size ts + 0) = q)]
            rw [decide_eq_true hmB2]
            simp only [hmW2, Bool.true_or, Bool.or_true, Bool.false_or,
              (by omega : q - 1 + 1 - toks_size ts = q + 1 - (toks_size ts + 1)),
              (by omega : q - 1 - toks_size ts = q - (toks_size ts + 1)),
              (by omega : f + 1 + toks_size ts = f + (toks_size ts + 1)),
              List.append_assoc]
            by_cases hW : Occupant.piece (⟨PieceType.K, true⟩ : Piece) ∈ tokens_expand ts
            · rw [if_pos hW, if_pos hW, List.indexOf_append_of_mem hW]
            · rw [if_neg hW, if_neg hW]
        · rw [if_neg hPB]
          simp only [hset]
          have hWs : Occupant.piece (⟨PieceType.K, true⟩ : Piece) ∉ [Occupant.piece p] := by
            intro hm
            rw [List.mem_singleton] at hm
            exact hPW (by injection hm with h; exact h.symm)
          have hBs : Occupant.piece (⟨PieceType.K, false⟩ : Piece) ∉ [Occupant.piece p] := by
            intro hm
            rw [List.mem_singleton] at hm
            exact hPB (by injection hm with h; exact h.symm)
          have hmWp : Occupant.piece (⟨PieceType.K, true⟩ : Piece)
                ∈ tokens_expand ts ++ [Occupant.piece p]
              ↔ Occupant.piece (⟨PieceType.K, true⟩ : Piece) ∈ tokens_expand ts := by
            rw [List.mem_append]
            exact or_iff_left hWs
          have hmBp : Occupant.piece (⟨PieceType.K, false⟩ : Piece)
                ∈ tokens_expand ts ++ [Occupant.piece p]
              ↔ Occupant.piece (⟨PieceType.K, false⟩ : Piece) ∈ tokens_expand ts := by
            rw [List.mem_append]
            exact or_iff_left hBs
          by_cases hts : ts = []
          · subst hts
            simp only [List.flatMap_nil, List.reverse_nil]
            rw [parse_rank_chars]
            rw [hexp, hsz]
            simp only [tokens_expand, toks_size, List.flatMap_nil, List.nil_append,
              List.map_nil, List.sum_nil, Nat.zero_add, List.append_assoc]
            have h1 : ¬(Occupant.piece (⟨PieceType.K, true⟩ : Piece) ∈ [Occupant.piece p]) := hWs
            have h2 : ¬(Occupant.piece (⟨PieceType.K, false⟩ : Piece) ∈ [Occupant.piece p]) := hBs
            have hPW2 : ¬((⟨PieceType.K, true⟩ : Piece) = p) := fun h => hPW h.symm
            have hPB2 : ¬((⟨PieceType.K, false⟩ : Piece) = p) := fun h => hPB h.symm
            simp [h1, h2, hPW2, hPB2]
          · have hsp := toks_size_pos ts hts (fun m hm => (hgap2 m hm).1)
            have hq2 : 1 ≤ q := by omega
            rw [(by rw [Nat.sub_add_cancel hq2] :
              List.replicate q Occupant.empty = List.replicate (q - 1 + 1) Occupant.empty)]
            rw [ih rankn (f + 1) (q - 1) ([Occupant.piece p] ++ suf)
              wkS wkP bkS bkP hgap2
              (by rw [hsz] at hf; omega)
              (by omega)
              (fun h hm => hwkS h (by rw [hexp]; exact List.mem_append_left _ hm))
              (by rw [hexp, List.count_append] at hwkC; omega)
              (fun h hm => hbkS h (by rw [hexp]; exact List.mem_append_left _ hm))
              (by rw [hexp, List.count_append] at hbkC; omega)]
            rw [hexp, hsz]
            simp only [hmWp, hmBp,
              (by omega : q - 1 + 1 - toks_size ts = q + 1 - (toks_size ts + 1)),
              (by omega : q - 1 - toks_size ts = q - (toks_size ts + 1)),
              (by omega : f + 1 + toks_size ts = f + (toks_size ts + 1)),
              List.append_assoc]
            by_cases hW : Occupant.piece (⟨PieceType.K, true⟩ : Piece) ∈ tokens_expand ts
            · by_cases hB : Occupant.piece (⟨PieceType.K, false⟩ : Piece) ∈ tokens_expand ts
              · rw [if_pos hW, if_pos hW, if_pos hB, if_pos hB,
                  List.indexOf_append_of_mem hW, List.indexOf_append_of_mem hB]
              · rw [if_pos hW, if_pos hW, if_neg hB, if_neg hB,
                  List.indexOf_append_of_mem hW]
            · by_cases hB : Occupant.piece (⟨PieceType.K, false⟩ : Piece) ∈ tokens_expand ts
              · rw [if_neg hW, if_neg hW, if_pos hB, if_pos hB,
                  List.indexOf_append_of_mem hB]
              · rw [if_neg hW, if_neg hW, if_neg hB, if_neg hB]


theorem length_flatten_const8 : ∀ (l : List (List Occupant)),
    (∀ c ∈ l, c.length = 8) → l.flatten.length = 8 * l.length
  | [], _ => rfl
  | c :: rest, h => by
    have ih := length_flatten_const8 rest (fun x hx => h x (List.mem_cons_of_mem _ hx))
    simp only [List.flatten_cons, List.length_append, ih, h c (List.mem_cons_self _ _),
      List.length_cons]
    ring

theorem parse_encoded_rank_ok (rank : List Occupant) (rankn q : Nat) (suf : List Occupant)
    (wkS : Bool) (wkP : Nat) (bkS : Bool) (bkP : Nat)
    (hlen : rank.length = 8) (hq : 8 ≤ q + 1)
    (hwkS : wkS = true → Occupant.piece ⟨PieceType.K, true⟩ ∉ rank)
    (hwkC : rank.count (Occupant.piece ⟨PieceType.K, true⟩) ≤ 1)
    (hbkS : bkS = true → Occupant.piece ⟨PieceType.K, false⟩ ∉ rank)
    (hbkC : rank.count (Occupant.piece ⟨PieceType.K, false⟩) ≤ 1) :
    parse_rank_chars rankn (encode_rank_chars rank).reverse
        ⟨List.replicate (q + 1) Occupant.empty ++ suf, wkS, wkP, bkS, bkP, q⟩ 0
      = Except.ok
        (⟨List.replicate (q + 1 - 8) Occupant.empty ++ rank ++ suf,
          wkS || decide (Occupant.piece ⟨PieceType.K, true⟩ ∈ rank),
          if Occupant.piece ⟨PieceType.K, true⟩ ∈ rank then
            q + 1 - 8 + rank.indexOf (Occupant.piece ⟨PieceType.K, true⟩)
          else wkP,
          bkS || decide (Occupant.piece ⟨PieceType.K, false⟩ ∈ rank),
          if Occupant.piece ⟨PieceType.K, false⟩ ∈ rank then
            q + 1 - 8 + rank.indexOf (Occupant.piece ⟨PieceType.K, false⟩)
          else bkP,
          q - 8⟩, 8) := by
  have hT0 : encode_rank_chars rank = (rank_tokens rank 0).flatMap tokChars := by
    rw [encode_rank_chars, encode_rank_go_eq_tokens]
  have hT1 : tokens_expand (rank_tokens rank 0) = rank := by
    rw [tokens_expand_rank_tokens]
    simp
  have hTs : toks_size (rank_tokens rank 0) = 8 := by
    rw [toks_size_rank_tokens]
    simp [hlen]
  have := parse_tokens_ok (rank_tokens rank 0) rankn 0 q suf wkS wkP bkS bkP
    (fun n hn => by
      have := rank_tokens_gap_bounds rank 0 n hn
      simpa [hlen] using this)
    (by rw [hTs])
    (by rw [hTs]; omega)
    (by rw [hT1]; exact hwkS)
    (by rw [hT1]; exact hwkC)
    (by rw [hT1]; exact hbkS)
    (by rw [hT1]; exact hbkC)
  rw [hT0]
  rw [this, hT1, hTs]

theorem parse_ranks_ok : ∀ (chks : List (List Occupant)) (rankn : Nat)
    (suf : List Occupant) (wkS : Bool) (wkP : Nat) (bkS : Bool) (bkP : Nat),
    (∀ c ∈ chks, c.length = 8) →
    (wkS = true → Occupant.piece ⟨PieceType.K, true⟩ ∉ chks.reverse.flatten) →
    (chks.reverse.flatten.count (Occupant.piece ⟨PieceType.K, true⟩) ≤ 1) →
    (bkS = true → Occupant.piece ⟨PieceType.K, false⟩ ∉ chks.reverse.flatten) →
    (chks.reverse.flatten.count (Occupant.piece ⟨PieceType.K, false⟩) ≤ 1) →
    ∃ ptr2,
    parse_ranks (chks.map encode_rank_chars) rankn
        ⟨List.replicate (8 * chks.length) Occupant.empty ++ suf,
          wkS, wkP, bkS, bkP, 8 * chks.length - 1⟩
      = Except.ok
        ⟨chks.reverse.flatten ++ suf,
          wkS || decide (Occupant.piece ⟨PieceType.K, true⟩ ∈ chks.reverse.flatten),
          if Occupant.piece ⟨PieceType.K, true⟩ ∈ chks.reverse.flatten then
            chks.reverse.flatten.indexOf (Occupant.piece ⟨PieceType.K, true⟩)
          else wkP,
          bkS || decide (Occupant.piece ⟨PieceType.K, false⟩ ∈ chks.reverse.flatten),
          if Occupant.piece ⟨PieceType.K, false⟩ ∈ chks.reverse.flatten then
            chks.reverse.flatten.indexOf (Occupant.piece ⟨PieceType.K, false⟩)
          else bkP,
          ptr2⟩
  | [], rankn, suf, wkS, wkP, bkS, bkP, hlen, hwkS, hwkC, hbkS, hbkC => by
    refine ⟨0, ?_⟩
    simp [parse_ranks]
  | ch :: rest, rankn, suf, wkS, wkP, bkS, bkP, hlen, hwkS, hwkC, hbkS, hbkC => by
    have hch : ch.length = 8 := hlen ch (List.mem_cons_self _ _)
    have hlen2 : ∀ c ∈ rest, c.length = 8 := fun c hc => hlen c (List.mem_cons_of_mem _ hc)
    have hflat : (ch :: rest).reverse.flatten = rest.reverse.flatten ++ ch := by
      simp
    rw [hflat] at hwkS hwkC hbkS hbkC
    have hrestlen : rest.reverse.flatten.length = 8 * rest.length := by
      have hall : ∀ c ∈ rest.reverse, c.length = 8 := fun c hc =>
        hlen2 c (List.mem_reverse.mp hc)
      rw [length_flatten_const8 rest.reverse hall, List.length_reverse]
    have hchW : ch.count (Occupant.piece ⟨PieceType.K, true⟩) ≤ 1 := by
      rw [List.count_append] at hwkC
      omega
    have hchB : ch.count (Occupant.piece ⟨PieceType.K, false⟩) ≤ 1 := by
      rw [List.count_append] at hbkC
      omega
    have hL : 8 * (ch :: rest).length = 8 * rest.length + 8 := by
      simp [List.length_cons]
      ring
    -- step: parse the top rank
    simp only [List.map_cons, parse_ranks]
    rw [hL]
    have hstep := parse_encoded_rank_ok ch rankn (8 * rest.length + 8 - 1) suf wkS wkP bkS bkP
      hch (by omega)
      (fun h => fun hm => hwkS h (List.mem_append_right _ hm))
      hchW
      (fun h => fun hm => hbkS h (List.mem_append_right _ hm))
      hchB
    rw [(by omega : 8 * rest.length + 8 - 1 + 1 = 8 * rest.length + 8)] at hstep
    rw [hstep]
    simp only []
    rw [if_neg (by omega : ¬(8 : Nat) ≠ 8)]
    have hq8 : 8 * rest.length + 8 - 8 = 8 * rest.length := by omega
    rw [hq8, (by omega : 8 * rest.length + 8 - 1 - 8 = 8 * rest.length - 1)]
    -- apply IH
    have hIHwkS : (wkS || decide (Occupant.piece ⟨PieceType.K, true⟩ ∈ ch)) = true →
        Occupant.piece ⟨PieceType.K, true⟩ ∉ rest.reverse.flatten := by
      intro h hm
      rcases Bool.or_eq_true_iff.mp h with h1 | h1
      · exact hwkS h1 (List.mem_append_left _ hm)
      · have h2 := of_decide_eq_true h1
        have c1 := List.count_pos_iff_mem.mpr hm
        have c2 := List.count_pos_iff_mem.mpr h2
        rw [List.count_append] at hwkC
        omega
    have hIHbkS : (bkS || decide (Occupant.piece ⟨PieceType.K, false⟩ ∈ ch)) = true →
        Occupant.piece ⟨PieceType.K, false⟩ ∉ rest.reverse.flatten := by
      intro h hm
      rcases Bool.or_eq_true_iff.mp h with h1 | h1
      · exact hbkS h1 (List.mem_append_left _ hm)
      · have h2 := of_decide_eq_true h1
        have c1 := List.count_pos_iff_mem.mpr hm
        have c2 := List.count_pos_iff_mem.mpr h2
        rw [List.count_append] at hbkC
        omega
    obtain ⟨ptr2, hIH⟩ := parse_ranks_ok rest (rankn - 1) (ch ++ suf)
      (wkS || decide (Occupant.piece ⟨PieceType.K, true⟩ ∈ ch))
      (if Occupant.piece ⟨PieceType.K, true⟩ ∈ ch then
        8 * rest.length + ch.indexOf (Occupant.piece ⟨PieceType.K, true⟩) else wkP)
      (bkS || decide (Occupant.piece ⟨PieceType.K, false⟩ ∈ ch))
      (if Occupant.piece ⟨PieceType.K, false⟩ ∈ ch then
        8 * rest.length + ch.indexOf (Occupant.piece ⟨PieceType.K, false⟩) else bkP)
      hlen2 hIHwkS (by rw [List.count_append] at hwkC; omega)
      hIHbkS (by rw [List.count_append] at hbkC; omega)
    refine ⟨ptr2, ?_⟩
    rw [← List.append_assoc] at hIH
    have eW : ((wkS || decide (Occupant.piece (⟨PieceType.K, true⟩ : Piece) ∈ ch))
          || decide (Occupant.piece (⟨PieceType.K, true⟩ : Piece) ∈ rest.reverse.flatten))
        = (wkS || decide (Occupant.piece (⟨PieceType.K, true⟩ : Piece)
            ∈ rest.reverse.flatten ++ ch)) := by
      by_cases h1 : Occupant.piece (⟨PieceType.K, true⟩ : Piece) ∈ rest.reverse.flatten <;>
        by_cases h2 : Occupant.piece (⟨PieceType.K, true⟩ : Piece) ∈ ch <;>
        simp [h1, h2, List.mem_append]
    have eB : ((bkS || decide (Occupant.piece (⟨PieceType.K, false⟩ : Piece) ∈ ch))
          || decide (Occupant.piece (⟨PieceType.K, false⟩ : Piece) ∈ rest.reverse.flatten))
        = (bkS || decide (Occupant.piece (⟨PieceType.K, false⟩ : Piece)
            ∈ rest.reverse.flatten ++ ch)) := by
      by_cases h1 : Occupant.piece (⟨PieceType.K, false⟩ : Piece) ∈ rest.reverse.flatten <;>
        by_cases h2 : Occupant.piece (⟨PieceType.K, false⟩ : Piece) ∈ ch <;>
        simp [h1, h2, List.mem_append]
    have eWP : (if Occupant.piece (⟨PieceType.K, true⟩ : Piece) ∈ rest.reverse.flatten then
          rest.reverse.flatten.indexOf (Occupant.piece ⟨PieceType.K, true⟩)
        else if Occupant.piece (⟨PieceType.K, true⟩ : Piece) ∈ ch then
          8 * rest.length + ch.indexOf (Occupant.piece ⟨PieceType.K, true⟩)
        else wkP)
        = (if Occupant.piece (⟨PieceType.K, true⟩ : Piece) ∈ rest.reverse.flatten ++ ch then
            (rest.reverse.flatten ++ ch).indexOf (Occupant.piece ⟨PieceType.K, true⟩)
          else wkP) := by
      by_cases h1 : Occupant.piece (⟨PieceType.K, true⟩ : Piece) ∈ rest.reverse.flatten
      · rw [if_pos h1, if_pos (List.mem_append_left _ h1), List.indexOf_append_of_mem h1]
      · by_cases h2 : Occupant.piece (⟨PieceType.K, true⟩ : Piece) ∈ ch
        · rw [if_neg h1, if_pos h2, if_pos (List.mem_append_right _ h2),
            List.indexOf_append_of_not_mem h1, hrestlen]
        · rw [if_neg h1, if_neg h2,
            if_neg (fun hm => (List.mem_append.mp hm).elim h1 h2)]
    have eBP : (if Occupant.piece (⟨PieceType.K, false⟩ : Piece) ∈ rest.reverse.flatten then
          rest.reverse.flatten.indexOf (Occupant.piece ⟨PieceType.K, false⟩)
        else if Occupant.piece (⟨PieceType.K, false⟩ : Piece) ∈ ch then
          8 * rest.length + ch.indexOf (Occupant.piece ⟨PieceType.K, false⟩)
        else bkP)
        = (if Occupant.piece (⟨PieceType.K, false⟩ : Piece) ∈ rest.reverse.flatten ++ ch then
            (rest.reverse.flatten ++ ch).indexOf (Occupant.piece ⟨PieceType.K, false⟩)
          else bkP) := by
      by_cases h1 : Occupant.piece (⟨PieceType.K, false⟩ : Piece) ∈ rest.reverse.flatten
      · rw [if_pos h1, if_pos (List.mem_append_left _ h1), List.indexOf_append_of_mem h1]
      · by_cases h2 : Occupant.piece (⟨PieceType.K, false⟩ : Piece) ∈ ch
        · rw [if_neg h1, if_pos h2, if_pos (List.mem_append_right _ h2),
            List.indexOf_append_of_not_mem h1, hrestlen]
        · rw [if_neg h1, if_neg h2,
            if_neg (fun hm => (List.mem_append.mp hm).elim h1 h2)]
    rw [hIH, hflat, ← eW, ← eB, ← eWP, ← eBP, ← List.append_assoc]

/-! ### FEN round trip: list-structure lemmas -/

theorem chunks8_spec {α : Type} : ∀ (k : Nat) (l : List α), l.length = 8 * k →
    (chunks8 l).length = k ∧ (∀ c ∈ chunks8 l, c.length = 8) ∧ (chunks8 l).flatten = l
  | 0, l, h => by
    have hl : l = [] := List.eq_nil_of_length_eq_zero (by omega)
    subst hl
    exact ⟨rfl, by simp [chunks8], rfl⟩
  | k + 1, l, h => by
    rcases l with _ | ⟨a1, l⟩; · simp only [List.length_nil, List.length_cons] at h; omega
    rcases l with _ | ⟨a2, l⟩; · simp only [List.length_nil, List.length_cons] at h; omega
    rcases l with _ | ⟨a3, l⟩; · simp only [List.length_nil, List.length_cons] at h; omega
    rcases l with _ | ⟨a4, l⟩; · simp only [List.length_nil, List.length_cons] at h; omega
    rcases l with _ | ⟨a5, l⟩; · simp only [List.length_nil, List.length_cons] at h; omega
    rcases l with _ | ⟨a6, l⟩; · simp only [List.length_nil, List.length_cons] at h; omega
    rcases l with _ | ⟨a7, l⟩; · simp only [List.length_nil, List.length_cons] at h; omega
    rcases l with _ | ⟨a8, l⟩; · simp only [List.length_nil, List.length_cons] at h; omega
    have hr : l.length = 8 * k := by simp at h; omega
    have ih := chunks8_spec k l hr
    refine ⟨by simp [chunks8, ih.1], ?_, by simp [chunks8, ih.2.2]⟩
    intro c hc
    rw [chunks8] at hc
    rcases List.mem_cons.mp hc with rfl | hc
    · rfl
    · exact ih.2.1 c hc

theorem split_on_ne_nil (sep : Char) : ∀ cs : List Char, split_on sep cs ≠ []
  | [] => by simp [split_on]
  | c :: t => by
    rcases hs : split_on sep t with _ | ⟨hd, r⟩ <;> rw [split_on, hs]
    · simp
    · by_cases hc : c = sep <;> simp [hc]

theorem split_on_no_sep (sep : Char) : ∀ cs : List Char, sep ∉ cs → split_on sep cs = [cs]
  | [], _ => rfl
  | c :: t, hni => by
    have ht := split_on_no_sep sep t (fun hm => hni (List.mem_cons_of_mem _ hm))
    rw [split_on, ht]
    have hc : ¬(c = sep) := fun e => hni (by rw [← e]; exact List.mem_cons_self _ _)
    simp [hc]

theorem split_on_sep_append (sep : Char) : ∀ (x rest : List Char), sep ∉ x →
    split_on sep (x ++ sep :: rest) = x :: split_on sep rest
  | [], rest, _ => by
    rcases hs : split_on sep rest with _ | ⟨hd, r⟩
    · exact absurd hs (split_on_ne_nil sep rest)
    · rw [List.nil_append, split_on, hs]
      simp
  | c :: x, rest, hni => by
    have ih := split_on_sep_append sep x rest (fun hm => hni (List.mem_cons_of_mem _ hm))
    have hc : ¬(c = sep) := fun e => hni (by rw [← e]; exact List.mem_cons_self _ _)
    rw [List.cons_append, split_on, ih]
    simp [hc]

theorem split_join (sep : Char) : ∀ parts : List (List Char), parts ≠ [] →
    (∀ p ∈ parts, sep ∉ p) → split_on sep (join_sep sep parts) = parts
  | [], hne, _ => absurd rfl hne
  | [x], _, hp => by
    rw [join_sep, split_on_no_sep sep x (hp x (List.mem_cons_self _ _))]
  | x :: y :: t, _, hp => by
    rw [join_sep, split_on_sep_append sep x _ (hp x (List.mem_cons_self _ _)),
      split_join sep (y :: t) (by simp) (fun p hm => hp p (List.mem_cons_of_mem _ hm))]

theorem mem_join_sep (sep : Char) : ∀ (parts : List (List Char)) (c : Char),
    c ∈ join_sep sep parts → c = sep ∨ ∃ p ∈ parts, c ∈ p
  | [], c, h => by simp [join_sep] at h
  | [x], c, h => by
    rw [join_sep] at h
    exact Or.inr ⟨x, List.mem_cons_self _ _, h⟩
  | x :: y :: t, c, h => by
    rw [join_sep] at h
    rcases List.mem_append.mp h with hx | hs
    · exact Or.inr ⟨x, List.mem_cons_self _ _, hx⟩
    · rcases List.mem_cons.mp hs with rfl | hj
      · exact Or.inl rfl
      · rcases mem_join_sep sep (y :: t) c hj with h1 | ⟨p, hp1, hp2⟩
        · exact Or.inl h1
        · exact Or.inr ⟨p, List.mem_cons_of_mem _ hp1, hp2⟩

theorem encode_rank_go_chars : ∀ (l : List Occupant) (e : Nat), e + l.length ≤ 8 →
    ∀ c ∈ encode_rank_go l e, c ≠ ' ' ∧ c ≠ '/'
  | [], e, he, c, hc => by
    have he8 : e ≤ 8 := by simpa using he
    rw [encode_rank_go] at hc
    by_cases h0 : 0 < e
    · rw [if_pos h0] at hc
      have hcc : c = Char.ofNat (48 + e) := by simpa using hc
      subst hcc
      exact ⟨(digit_char_facts e h0 he8).2.2.1, (digit_char_facts e h0 he8).2.2.2⟩
    · rw [if_neg h0] at hc
      simp at hc
  | Occupant.piece p :: rest, e, he, c, hc => by
    have he8 : e ≤ 8 := by simp at he; omega
    rw [encode_rank_go] at hc
    rcases List.mem_append.mp hc with hfl | hcons
    · by_cases h0 : 0 < e
      · rw [if_pos h0] at hfl
        have hcc : c = Char.ofNat (48 + e) := by simpa using hfl
        subst hcc
        exact ⟨(digit_char_facts e h0 he8).2.2.1, (digit_char_facts e h0 he8).2.2.2⟩
      · rw [if_neg h0] at hfl
        simp at hfl
    · rcases List.mem_cons.mp hcons with rfl | hrec
      · exact ⟨(char_of_piece_facts p).2.2.1, (char_of_piece_facts p).2.2.2⟩
      · exact encode_rank_go_chars rest 0 (by simp at he ⊢; omega) c hrec
  | Occupant.empty :: rest, e, he, c, hc =>
    encode_rank_go_chars rest (e + 1) (by simp at he ⊢; omega) c (by
      rw [encode_rank_go] at hc; exact hc)

theorem encode_rank_chars_chars (rank : List Occupant) (hlen : rank.length ≤ 8) :
    ∀ c ∈ encode_rank_chars rank, c ≠ ' ' ∧ c ≠ '/' := by
  intro c hc
  rw [encode_rank_chars] at hc
  exact encode_rank_go_chars rank 0 (by omega) c hc


theorem digit_char_facts10 (m : Nat) (hm : m ≤ 9) :
    (Char.ofNat (48 + m)).isDigit = true ∧ Char.ofNat (48 + m) ≠ ' ' ∧
    Char.ofNat (48 + m) ≠ '+' ∧ (Char.ofNat (48 + m)).toNat - 48 = m := by
  interval_cases m <;> exact ⟨by decide, by decide, by decide, by decide⟩

theorem nat_chars_facts (n : Nat) : nat_chars n ≠ [] ∧
    ∀ c ∈ nat_chars n, c.isDigit = true ∧ c ≠ ' ' ∧ c ≠ '+' := by
  induction n using Nat.strong_induction_on with
  | _ n ih =>
    rw [nat_chars]
    by_cases h : n < 10
    · rw [if_pos h]
      refine ⟨by simp, ?_⟩
      intro c hc
      have hcc : c = Char.ofNat (48 + n) := by simpa using hc
      subst hcc
      have hfacts := digit_char_facts10 n (by omega)
      exact ⟨hfacts.1, hfacts.2.1, hfacts.2.2.1⟩
    · rw [if_neg h]
      refine ⟨by simp, ?_⟩
      intro c hc
      rcases List.mem_append.mp hc with h1 | h2
      · exact (ih (n / 10) (Nat.div_lt_self (by omega) (by omega))).2 c h1
      · have hcc : c = Char.ofNat (48 + n % 10) := by simpa using h2
        subst hcc
        have hfacts := digit_char_facts10 (n % 10) (by omega)
        exact ⟨hfacts.1, hfacts.2.1, hfacts.2.2.1⟩

theorem nat_chars_foldl : ∀ n a : Nat,
    (nat_chars n).foldl (fun acc c => acc * 10 + (c.toNat - 48)) a
      = a * 10 ^ (nat_chars n).length + n := by
  intro n
  induction n using Nat.strong_induction_on with
  | _ n ih =>
    intro a
    rw [nat_chars]
    by_cases h : n < 10
    · rw [if_pos h]
      simp only [List.foldl_cons, List.foldl_nil, List.length_cons, List.length_nil]
      rw [(digit_char_facts10 n (by omega)).2.2.2]
      ring
    · rw [if_neg h]
      rw [List.foldl_append, ih (n / 10) (Nat.div_lt_self (by omega) (by omega)) a]
      simp only [List.foldl_cons, List.foldl_nil, List.length_append, List.length_cons,
        List.length_nil]
      rw [(digit_char_facts10 (n % 10) (by omega)).2.2.2]
      have hd : 10 * (n / 10) + n % 10 = n := Nat.div_add_mod n 10
      calc (a * 10 ^ (nat_chars (n / 10)).length + n / 10) * 10 + n % 10
          = a * (10 ^ (nat_chars (n / 10)).length * 10) + (10 * (n / 10) + n % 10) := by
            ring
        _ = a * 10 ^ ((nat_chars (n / 10)).length + (0 + 1)) + n := by
            rw [pow_succ, hd]

theorem parse_usize_nat_chars (n : Nat) : parse_usize (nat_chars n) = some n := by
  have hf := nat_chars_facts n
  have hv := nat_chars_foldl n 0
  rcases hsh : nat_chars n with _ | ⟨c, t⟩
  · exact absurd hsh hf.1
  rw [hsh] at hv
  have hc := hf.2 c (by rw [hsh]; exact List.mem_cons_self _ _)
  have hall : ∀ x ∈ c :: t, x.isDigit = true := fun x hx => (hf.2 x (by rw [hsh]; exact hx)).1
  rw [parse_usize]
  split
  · rw [hv]
    simp
  · rename_i hneg
    exact absurd ⟨by simp, List.all_eq_true.mpr hall⟩ hneg
  · intro t1 he
    rw [List.cons.injEq] at he
    exact hc.2.2 he.1

theorem getD_set_self {α : Type} (l : List α) (i : Nat) (x d : α) (h : i < l.length) :
    (l.set i x).getD i d = x := by
  rw [List.getD_eq_getElem?_getD, List.getElem?_set_self (by simpa using h)]
  rfl

theorem getD_set_ne {α : Type} (l : List α) (i j : Nat) (x d : α) (h : i ≠ j) :
    (l.set i x).getD j d = l.getD j d := by
  rw [List.getD_eq_getElem?_getD, List.getD_eq_getElem?_getD, List.getElem?_set_ne h]

theorem count_set_of_ne {α : Type} [DecidableEq α] : ∀ (l : List α) (i : Nat) (x y d : α),
    l.getD i d ≠ y → x ≠ y → (l.set i x).count y = l.count y
  | [], _, _, _, _, _, _ => rfl
  | a :: t, 0, x, y, d, h1, h2 => by
    have ha : a ≠ y := by simpa using h1
    simp [List.count_cons, h2, ha]
  | a :: t, i + 1, x, y, d, h1, h2 => by
    have ih := count_set_of_ne t i x y d (by simpa using h1) h2
    by_cases hay : a = y <;> simp [List.count_cons, ih, hay]

theorem count_set_self_incr {α : Type} [DecidableEq α] : ∀ (l : List α) (i : Nat) (y d : α),
    i < l.length → l.getD i d ≠ y → (l.set i y).count y = l.count y + 1
  | [], i, y, d, h, _ => by simp at h
  | a :: t, 0, y, d, _, h1 => by
    have ha : a ≠ y := by simpa using h1
    simp [List.count_cons, ha]
  | a :: t, i + 1, y, d, h, h1 => by
    have ih := count_set_self_incr t i y d (by simpa using h) (by simpa using h1)
    by_cases hay : a = y <;> simp [List.count_cons, ih, hay] <;> omega

theorem mem_of_getD {α : Type} (l : List α) (i : Nat) (x d : α) (hxd : x ≠ d)
    (h : l.getD i d = x) : x ∈ l := by
  by_cases hi : i < l.length
  · rw [List.getD_eq_getElem?_getD, List.getElem?_eq_getElem hi] at h
    simp only [Option.getD_some] at h
    rw [← h]
    exact List.getElem_mem hi
  · rw [List.getD_eq_getElem?_getD, List.getElem?_eq_none (by omega)] at h
    simp only [Option.getD_none] at h
    exact absurd h.symm hxd

theorem count_one_indexOf {α : Type} [DecidableEq α] : ∀ (l : List α) (i : Nat) (x d : α),
    x ≠ d → l.count x = 1 → l.getD i d = x → l.indexOf x = i
  | [], i, x, d, hxd, hc, hg => by simp at hc
  | a :: t, 0, x, d, hxd, hc, hg => by
    have ha : a = x := by simpa using hg
    subst ha
    simp [List.indexOf_cons_self]
  | a :: t, i + 1, x, d, hxd, hc, hg => by
    have hgt : t.getD i d = x := by simpa using hg
    have hmem : x ∈ t := mem_of_getD t i x d hxd hgt
    have hpos : 0 < t.count x := List.count_pos_iff_mem.mpr hmem
    have hax : a ≠ x := by
      intro he
      subst he
      simp [List.count_cons] at hc
      omega
    have hct : t.count x = 1 := by
      simp [List.count_cons, hax] at hc
      exact hc
    simp [List.indexOf_cons_ne _ hax, count_one_indexOf t i x d hxd hct hgt]


theorem KingInv_set_other (content : List Occupant) (seen : Bool) (pos ptr : Nat)
    (kocc x : Occupant)
    (hcell : content.getD ptr Occupant.empty = Occupant.empty)
    (hko : kocc ≠ Occupant.empty) (hxk : x ≠ kocc)
    (hKI : KingInv content seen pos kocc) :
    KingInv (content.set ptr x) seen pos kocc := by
  have hcellne : content.getD ptr Occupant.empty ≠ kocc := by
    rw [hcell]
    exact fun h => hko h.symm
  have hcount := count_set_of_ne content ptr x kocc Occupant.empty hcellne hxk
  cases seen
  · exact hcount.trans hKI
  · obtain ⟨hc, hp⟩ := hKI
    have hp2 : content.getD pos Occupant.empty = kocc := hp
    have hne : ptr ≠ pos := by
      intro he
      rw [he] at hcell
      rw [hcell] at hp2
      exact hko hp2.symm
    exact ⟨hcount.trans hc, (getD_set_ne content ptr pos x Occupant.empty hne).trans hp2⟩

theorem parse_rank_chars_good (rankn : Nat) : ∀ (cs : List Char) (st : BoardParse)
    (f k : Nat) (st2 : BoardParse) (f2 : Nat),
    parse_rank_chars rankn cs st f = Except.ok (st2, f2) →
    GoodState st k → f ≤ 8 → k ≤ 56 + f →
    GoodState st2 (k + (f2 - f)) ∧ f ≤ f2 ∧ f2 ≤ 8 ∧ k + (f2 - f) ≤ 56 + f2
  | [], st, f, k, st2, f2, hp, hg, hf, hk => by
    rw [parse_rank_chars] at hp
    rw [Except.ok.injEq, Prod.mk.injEq] at hp
    obtain ⟨h1, h2⟩ := hp
    subst h1
    subst h2
    exact ⟨by simpa using hg, le_refl f, hf, by omega⟩
  | c :: rest, st, f, k, st2, f2, hp, hg, hf, hk => by
    obtain ⟨hlen, hptr, hk64, hemp, hWK, hBK⟩ := hg
    rw [parse_rank_chars] at hp
    by_cases h8 : f = 8
    · rw [if_pos h8] at hp
      exact absurd hp (by simp)
    rw [if_neg h8] at hp
    have hf7 : f ≤ 7 := by omega
    by_cases hd : c.isDigit = true
    · rw [if_pos hd] at hp
      simp only [] at hp
      by_cases hr1 : ¬(1 ≤ c.toNat - 48 ∧ c.toNat - 48 ≤ 8)
      · rw [if_pos hr1] at hp
        exact absurd hp (by simp)
      rw [if_neg hr1] at hp
      push_neg at hr1
      by_cases hr2 : 8 - f < c.toNat - 48
      · rw [if_pos hr2] at hp
        exact absurd hp (by simp)
      rw [if_neg hr2] at hp
      have hg2 : GoodState { st with ptr := st.ptr - (c.toNat - 48) } (k + (c.toNat - 48)) := by
        refine ⟨hlen, ?_, by omega, ?_, hWK, hBK⟩
        · show st.ptr - (c.toNat - 48) = 63 - (k + (c.toNat - 48))
          omega
        · intro i hi
          exact hemp i (by omega)
      obtain ⟨ihg, ihf1, ihf2, ihk⟩ := parse_rank_chars_good rankn rest _ (f + (c.toNat - 48))
        (k + (c.toNat - 48)) st2 f2 hp hg2 (by omega) (by omega)
      rw [(by omega : k + (c.toNat - 48) + (f2 - (f + (c.toNat - 48))) = k + (f2 - f))]
        at ihg ihk
      exact ⟨ihg, by omega, ihf2, by omega⟩
    · rw [if_neg hd] at hp
      rcases hpcm : piece_of_char c with _ | pc
      · rw [hpcm] at hp
        exact absurd hp (by simp)
      rw [hpcm] at hp
      simp only [] at hp
      have hptrlen : st.ptr < st.content.length := by omega
      have hcell : st.content.getD st.ptr Occupant.empty = Occupant.empty :=
        hemp st.ptr (by omega)
      by_cases hWKc : pc = (⟨PieceType.K, true⟩ : Piece)
      · subst hWKc
        rw [if_pos rfl] at hp
        by_cases hseen : st.wkSeen = true
        · rw [if_pos hseen] at hp
          exact absurd hp (by simp)
        rw [if_neg hseen] at hp
        have hseenF : st.wkSeen = false := by simpa using hseen
        rw [hseenF] at hWK
        have hWc0 : st.content.count (Occupant.piece ⟨PieceType.K, true⟩) = 0 := hWK
        have hg2 : GoodState
            { st with
              content := st.content.set st.ptr (Occupant.piece ⟨PieceType.K, true⟩)
              wkSeen := true
              wkPos := st.ptr
              ptr := st.ptr - 1 } (k + 1) := by
          refine ⟨by simpa using hlen, ?_, by omega, ?_, ⟨?_, ?_⟩, ?_⟩
          · show st.ptr - 1 = 63 - (k + 1)
            omega
          · intro i hi
            exact (getD_set_ne st.content st.ptr i _ Occupant.empty (by omega)).trans
              (hemp i (by omega))
          · show (st.content.set st.ptr (Occupant.piece ⟨PieceType.K, true⟩)).count
              (Occupant.piece ⟨PieceType.K, true⟩) = 1
            rw [count_set_self_incr st.content st.ptr _ Occupant.empty hptrlen
              (by rw [hcell]; simp), hWc0]
          · exact getD_set_self st.content st.ptr _ Occupant.empty hptrlen
          · exact KingInv_set_other st.content st.bkSeen st.bkPos st.ptr _ _ hcell
              (by simp) (by simp) hBK
        obtain ⟨ihg, ihf1, ihf2, ihk⟩ := parse_rank_chars_good rankn rest _ (f + 1) (k + 1)
          st2 f2 hp hg2 (by omega) (by omega)
        rw [(by omega : k + 1 + (f2 - (f + 1)) = k + (f2 - f))] at ihg ihk
        exact ⟨ihg, by omega, ihf2, by omega⟩
      rw [if_neg hWKc] at hp
      by_cases hBKc : pc = (⟨PieceType.K, false⟩ : Piece)
      · subst hBKc
        rw [if_pos rfl] at hp
        by_cases hseen : st.bkSeen = true
        · rw [if_pos hseen] at hp
          exact absurd hp (by simp)
        rw [if_neg hseen] at hp
        have hseenF : st.bkSeen = false := by simpa using hseen
        rw [hseenF] at hBK
        have hBc0 : st.content.count (Occupant.piece ⟨PieceType.K, false⟩) = 0 := hBK
        have hg2 : GoodState
            { st with
              content := st.content.set st.ptr (Occupant.piece ⟨PieceType.K, false⟩)
              bkSeen := true
              bkPos := st.ptr
              ptr := st.ptr - 1 } (k + 1) := by
          refine ⟨by simpa using hlen, ?_, by omega, ?_, ?_, ⟨?_, ?_⟩⟩
          · show st.ptr - 1 = 63 - (k + 1)
            omega
          · intro i hi
            exact (getD_set_ne st.content st.ptr i _ Occupant.empty (by omega)).trans
              (hemp i (by omega))
          · exact KingInv_set_other st.content st.wkSeen st.wkPos st.ptr _ _ hcell
              (by simp) (by simp) hWK
          · show (st.content.set st.ptr (Occupant.piece ⟨PieceType.K, false⟩)).count
              (Occupant.piece ⟨PieceType.K, false⟩) = 1
            rw [count_set_self_incr st.content st.ptr _ Occupant.empty hptrlen
              (by rw [hcell]; simp), hBc0]
          · exact getD_set_self st.content st.ptr _ Occupant.empty hptrlen
        obtain ⟨ihg, ihf1, ihf2, ihk⟩ := parse_rank_chars_good rankn rest _ (f + 1) (k + 1)
          st2 f2 hp hg2 (by omega) (by omega)
        rw [(by omega : k + 1 + (f2 - (f + 1)) = k + (f2 - f))] at ihg ihk
        exact ⟨ihg, by omega, ihf2, by omega⟩
      rw [if_neg hBKc] at hp
      have hg2 : GoodState
          { st with
            content := st.content.set st.ptr (Occupant.piece pc)
            ptr := st.ptr - 1 } (k + 1) := by
        refine ⟨by simpa using hlen, ?_, by omega, ?_, ?_, ?_⟩
        · show st.ptr - 1 = 63 - (k + 1)
          omega
        · intro i hi
          exact (getD_set_ne st.content st.ptr i _ Occupant.empty (by omega)).trans
            (hemp i (by omega))
        · exact KingInv_set_other st.content st.wkSeen st.wkPos st.ptr _ _ hcell
            (by simp) (by simp [hWKc]) hWK
        · exact KingInv_set_other st.content st.bkSeen st.bkPos st.ptr _ _ hcell
            (by simp) (by simp [hBKc]) hBK
      obtain ⟨ihg, ihf1, ihf2, ihk⟩ := parse_rank_chars_good rankn rest _ (f + 1) (k + 1)
        st2 f2 hp hg2 (by omega) (by omega)
      rw [(by omega : k + 1 + (f2 - (f + 1)) = k + (f2 - f))] at ihg ihk
      exact ⟨ihg, by omega, ihf2, by omega⟩


theorem parse_ranks_good : ∀ (ranks : List (List Char)) (rankn : Nat) (st st2 : BoardParse)
    (k : Nat),
    parse_ranks ranks rankn st = Except.ok st2 →
    GoodState st k → k + 8 * ranks.length ≤ 64 →
    GoodState st2 (k + 8 * ranks.length)
  | [], _, st, st2, k, hp, hg, _ => by
    rw [parse_ranks] at hp
    rw [Except.ok.injEq] at hp
    subst hp
    simpa using hg
  | r :: rest, rankn, st, st2, k, hp, hg, hb => by
    rw [parse_ranks] at hp
    have hb2 : k + 8 * (r :: rest).length ≤ 64 := hb
    rw [List.length_cons] at hb2
    rcases hstep : parse_rank_chars rankn r.reverse st 0 with e | ⟨stm, filled⟩
    · rw [hstep] at hp
      exact absurd hp (by simp)
    rw [hstep] at hp
    simp only [] at hp
    by_cases hfill : filled ≠ 8
    · rw [if_pos hfill] at hp
      exact absurd hp (by simp)
    rw [if_neg hfill] at hp
    push_neg at hfill
    subst hfill
    have hgood := parse_rank_chars_good rankn r.reverse st 0 k stm 8 hstep hg (by omega)
      (by omega)
    have hgm : GoodState stm (k + 8) := by
      have := hgood.1
      rw [(by omega : k + (8 - 0) = k + 8)] at this
      exact this
    have hrec := parse_ranks_good rest (rankn - 1) stm st2 (k + 8) hp hgm (by omega)
    rw [List.length_cons]
    rw [(by ring : k + 8 * (rest.length + 1) = k + 8 + 8 * rest.length)]
    exact hrec

theorem parse_board_field_good (cs : List Char) (st2 : BoardParse)
    (hp : parse_board_field cs = Except.ok st2) :
    GoodState st2 64 ∧ st2.wkSeen = true ∧ st2.bkSeen = true := by
  rw [parse_board_field] at hp
  by_cases hlen : (split_on '/' cs).length ≠ 8
  · rw [if_pos hlen] at hp
    exact absurd hp (by simp)
  rw [if_neg hlen] at hp
  push_neg at hlen
  rcases hpr : parse_ranks (split_on '/' cs) 8
      ⟨List.replicate 64 Occupant.empty, false, 0, false, 0, 63⟩ with e | stm
  · rw [hpr] at hp
    exact absurd hp (by simp)
  rw [hpr] at hp
  simp only [] at hp
  by_cases hseen : stm.wkSeen = true ∧ stm.bkSeen = true
  · rw [if_pos hseen] at hp
    rw [Except.ok.injEq] at hp
    subst hp
    have hg0 : GoodState ⟨List.replicate 64 Occupant.empty, false, 0, false, 0, 63⟩ 0 := by
      refine ⟨by simp, rfl, by omega, ?_, ?_, ?_⟩
      · intro i hi
        show (List.replicate 64 Occupant.empty).getD i Occupant.empty = Occupant.empty
        rw [List.getD_eq_getElem?_getD, List.getElem?_replicate]
        simp [(by omega : i < 64)]
      · show (List.replicate 64 Occupant.empty).count
          (Occupant.piece ⟨PieceType.K, true⟩) = 0
        rw [List.count_eq_zero]
        simp
      · show (List.replicate 64 Occupant.empty).count
          (Occupant.piece ⟨PieceType.K, false⟩) = 0
        rw [List.count_eq_zero]
        simp
    have := parse_ranks_good (split_on '/' cs) 8 _ stm 0 hpr hg0 (by rw [hlen])
    rw [hlen] at this
    exact ⟨by simpa using this, hseen.1, hseen.2⟩
  · rw [if_neg hseen] at hp
    exact absurd hp (by simp)


theorem pcc_nil (wk bk : Nat) (cr : List Bool) :
    parse_castling_chars wk bk [] cr = Except.ok cr := by
  rw [parse_castling_chars]

theorem pcc_K_step (wk bk : Nat) (rest : List Char) (cr : List Bool)
    (hc : wk ≤ 6) (hd : cr.getD 0 false = false) :
    parse_castling_chars wk bk ('K' :: rest) cr
      = parse_castling_chars wk bk rest (cr.set 0 true) := by
  rw [parse_castling_chars, if_pos rfl, if_neg (by omega), if_neg (by rw [hd]; simp)]

theorem pcc_Q_step (wk bk : Nat) (rest : List Char) (cr : List Bool)
    (hc : 1 ≤ wk ∧ wk ≤ 7) (hd : cr.getD 1 false = false) :
    parse_castling_chars wk bk ('Q' :: rest) cr
      = parse_castling_chars wk bk rest (cr.set 1 true) := by
  rw [parse_castling_chars, if_neg (by decide), if_pos rfl, if_neg (not_not_intro hc),
    if_neg (by rw [hd]; simp)]

theorem pcc_k_step (wk bk : Nat) (rest : List Char) (cr : List Bool)
    (hc : 56 ≤ bk ∧ bk ≤ 62) (hd : cr.getD 2 false = false) :
    parse_castling_chars wk bk ('k' :: rest) cr
      = parse_castling_chars wk bk rest (cr.set 2 true) := by
  rw [parse_castling_chars, if_neg (by decide), if_neg (by decide), if_pos rfl,
    if_neg (not_not_intro hc), if_neg (by rw [hd]; simp)]

theorem pcc_q_step (wk bk : Nat) (rest : List Char) (cr : List Bool)
    (hc : 57 ≤ bk ∧ bk < 64) (hd : cr.getD 3 false = false) :
    parse_castling_chars wk bk ('q' :: rest) cr
      = parse_castling_chars wk bk rest (cr.set 3 true) := by
  rw [parse_castling_chars, if_neg (by decide), if_neg (by decide), if_neg (by decide),
    if_pos rfl, if_neg (not_not_intro hc), if_neg (by rw [hd]; simp)]

theorem canonical_castling_parse (b0 b1 b2 b3 : Bool) (wk bk : Nat)
    (h0 : b0 = true → wk ≤ 6)
    (h1 : b1 = true → 1 ≤ wk ∧ wk ≤ 7)
    (h2 : b2 = true → 56 ≤ bk ∧ bk ≤ 62)
    (h3 : b3 = true → 57 ≤ bk ∧ bk < 64) :
    parse_castling_field
      (if ((if b0 then ['K'] else []) ++ (if b1 then ['Q'] else []) ++
          (if b2 then ['k'] else []) ++ (if b3 then ['q'] else [])).isEmpty then ['-']
        else (if b0 then ['K'] else []) ++ (if b1 then ['Q'] else []) ++
          (if b2 then ['k'] else []) ++ (if b3 then ['q'] else [])) wk bk
      = Except.ok [b0, b1, b2, b3] := by
  cases b0 <;> cases b1 <;> cases b2 <;> cases b3
  · rfl
  ·
    have c3 := h3 rfl
    show parse_castling_chars wk bk ['q'] [false, false, false, false] = _
    rw [pcc_q_step wk bk [] [false, false, false, false] c3 rfl]
    show parse_castling_chars wk bk [] [false, false, false, true] = _
    rfl
  ·
    have c2 := h2 rfl
    show parse_castling_chars wk bk ['k'] [false, false, false, false] = _
    rw [pcc_k_step wk bk [] [false, false, false, false] c2 rfl]
    show parse_castling_chars wk bk [] [false, false, true, false] = _
    rfl
  ·
    have c2 := h2 rfl
    have c3 := h3 rfl
    show parse_castling_chars wk bk ['k', 'q'] [false, false, false, false] = _
    rw [pcc_k_step wk bk ['q'] [false, false, false, false] c2 rfl]
    show parse_castling_chars wk bk ['q'] [false, false, true, false] = _
    rw [pcc_q_step wk bk [] [false, false, true, false] c3 rfl]
    show parse_castling_chars wk bk [] [false, false, true, true] = _
    rfl
  ·
    have c1 := h1 rfl
    show parse_castling_chars wk bk ['Q'] [false, false, false, false] = _
    rw [pcc_Q_step wk bk [] [false, false, false, false] c1 rfl]
    show parse_castling_chars wk bk [] [false, true, false, false] = _
    rfl
  ·
    have c1 := h1 rfl
    have c3 := h3 rfl
    show parse_castling_chars wk bk ['Q', 'q'] [false, false, false, false] = _
    rw [pcc_Q_step wk bk ['q'] [false, false, false, false] c1 rfl]
    show parse_castling_chars wk bk ['q'] [false, true, false, false] = _
    rw [pcc_q_step wk bk [] [false, true, false, false] c3 rfl]
    show parse_castling_chars wk bk [] [false, true, false, true] = _
    rfl
  ·
    have c1 := h1 rfl
    have c2 := h2 rfl
    show parse_castling_chars wk bk ['Q', 'k'] [false, false, false, false] = _
    rw [pcc_Q_step wk bk ['k'] [false, false, false, false] c1 rfl]
    show parse_castling_chars wk bk ['k'] [false, true, false, false] = _
    rw [pcc_k_step wk bk [] [false, true, false, false] c2 rfl]
    show parse_castling_chars wk bk [] [false, true, true, false] = _
    rfl
  ·
    have c1 := h1 rfl
    have c2 := h2 rfl
    have c3 := h3 rfl
    show parse_castling_chars wk bk ['Q', 'k', 'q'] [false, false, false, false] = _
    rw [pcc_Q_step wk bk ['k', 'q'] [false, false, false, false] c1 rfl]
    show parse_castling_chars wk bk ['k', 'q'] [false, true, false, false] = _
    rw [pcc_k_step wk bk ['q'] [false, true, false, false] c2 rfl]
    show parse_castling_chars wk bk ['q'] [false, true, true, false] = _
    rw [pcc_q_step wk bk [] [false, true, true, false] c3 rfl]
    show parse_castling_chars wk bk [] [false, true, true, true] = _
    rfl
  ·
    have c0 := h0 rfl
    show parse_castling_chars wk bk ['K'] [false, false, false, false] = _
    rw [pcc_K_step wk bk [] [false, false, false, false] c0 rfl]
    show parse_castling_chars wk bk [] [true, false, false, false] = _
    rfl
  ·
    have c0 := h0 rfl
    have c3 := h3 rfl
    show parse_castling_chars wk bk ['K', 'q'] [false, false, false, false] = _
    rw [pcc_K_step wk bk ['q'] [false, false, false, false] c0 rfl]
    show parse_castling_chars wk bk ['q'] [true, false, false, false] = _
    rw [pcc_q_step wk bk [] [true, false, false, false] c3 rfl]
    show parse_castling_chars wk bk [] [true, false, false, true] = _
    rfl
  ·
    have c0 := h0 rfl
    have c2 := h2 rfl
    show parse_castling_chars wk bk ['K', 'k'] [false, false, false, false] = _
    rw [pcc_K_step wk bk ['k'] [false, false, false, false] c0 rfl]
    show parse_castling_chars wk bk ['k'] [true, false, false, false] = _
    rw [pcc_k_step wk bk [] [true, false, false, false] c2 rfl]
    show parse_castling_chars wk bk [] [true, false, true, false] = _
    rfl
  ·
    have c0 := h0 rfl
    have c2 := h2 rfl
    have c3 := h3 rfl
    show parse_castling_chars wk bk ['K', 'k', 'q'] [false, false, false, false] = _
    rw [pcc_K_step wk bk ['k', 'q'] [false, false, false, false] c0 rfl]
    show parse_castling_chars wk bk ['k', 'q'] [true, false, false, false] = _
    rw [pcc_k_step wk bk ['q'] [true, false, false, false] c2 rfl]
    show parse_castling_chars wk bk ['q'] [true, false, true, false] = _
    rw [pcc_q_step wk bk [] [true, false, true, false] c3 rfl]
    show parse_castling_chars wk bk [] [true, false, true, true] = _
    rfl
  ·
    have c0 := h0 rfl
    have c1 := h1 rfl
    show parse_castling_chars wk bk ['K', 'Q'] [false, false, false, false] = _
    rw [pcc_K_step wk bk ['Q'] [false, false, false, false] c0 rfl]
    show parse_castling_chars wk bk ['Q'] [true, false, false, false] = _
    rw [pcc_Q_step wk bk [] [true, false, false, false] c1 rfl]
    show parse_castling_chars wk bk [] [true, true, false, false] = _
    rfl
  ·
    have c0 := h0 rfl
    have c1 := h1 rfl
    have c3 := h3 rfl
    show parse_castling_chars wk bk ['K', 'Q', 'q'] [false, false, false, false] = _
    rw [pcc_K_step wk bk ['Q', 'q'] [false, false, false, false] c0 rfl]
    show parse_castling_chars wk bk ['Q', 'q'] [true, false, false, false] = _
    rw [pcc_Q_step wk bk ['q'] [true, false, false, false] c1 rfl]
    show parse_castling_chars wk bk ['q'] [true, true, false, false] = _
    rw [pcc_q_step wk bk [] [true, true, false, false] c3 rfl]
    show parse_castling_chars wk bk [] [true, true, false, true] = _
    rfl
  ·
    have c0 := h0 rfl
    have c1 := h1 rfl
    have c2 := h2 rfl
    show parse_castling_chars wk bk ['K', 'Q', 'k'] [false, false, false, false] = _
    rw [pcc_K_step wk bk ['Q', 'k'] [false, false, false, false] c0 rfl]
    show parse_castling_chars wk bk ['Q', 'k'] [true, false, false, false] = _
    rw [pcc_Q_step wk bk ['k'] [true, false, false, false] c1 rfl]
    show parse_castling_chars wk bk ['k'] [true, true, false, false] = _
    rw [pcc_k_step wk bk [] [true, true, false, false] c2 rfl]
    show parse_castling_chars wk bk [] [true, true, true, false] = _
    rfl
  ·
    have c0 := h0 rfl
    have c1 := h1 rfl
    have c2 := h2 rfl
    have c3 := h3 rfl
    show parse_castling_chars wk bk ['K', 'Q', 'k', 'q'] [false, false, false, false] = _
    rw [pcc_K_step wk bk ['Q', 'k', 'q'] [false, false, false, false] c0 rfl]
    show parse_castling_chars wk bk ['Q', 'k', 'q'] [true, false, false, false] = _
    rw [pcc_Q_step wk bk ['k', 'q'] [true, false, false, false] c1 rfl]
    show parse_castling_chars wk bk ['k', 'q'] [true, true, false, false] = _
    rw [pcc_k_step wk bk ['q'] [true, true, false, false] c2 rfl]
    show parse_castling_chars wk bk ['q'] [true, true, true, false] = _
    rw [pcc_q_step wk bk [] [true, true, true, false] c3 rfl]
    show parse_castling_chars wk bk [] [true, true, true, true] = _
    rfl

theorem parse_castling_chars_sound (wk bk : Nat) : ∀ (cs : List Char) (cr cr2 : List Bool),
    parse_castling_chars wk bk cs cr = Except.ok cr2 →
    (cr2.getD 0 false = true → cr.getD 0 false = true ∨ wk ≤ 6) ∧
    (cr2.getD 1 false = true → cr.getD 1 false = true ∨ (1 ≤ wk ∧ wk ≤ 7)) ∧
    (cr2.getD 2 false = true → cr.getD 2 false = true ∨ (56 ≤ bk ∧ bk ≤ 62)) ∧
    (cr2.getD 3 false = true → cr.getD 3 false = true ∨ (57 ≤ bk ∧ bk < 64)) ∧
    cr2.length = cr.length
  | [], cr, cr2, hp => by
    rw [pcc_nil, Except.ok.injEq] at hp
    subst hp
    exact ⟨fun h => Or.inl h, fun h => Or.inl h, fun h => Or.inl h, fun h => Or.inl h, rfl⟩
  | c :: rest, cr, cr2, hp => by
    rw [parse_castling_chars] at hp
    by_cases hKc : c = 'K'
    · rw [if_pos hKc] at hp
      by_cases hc1 : 6 < wk
      · rw [if_pos hc1] at hp
        exact absurd hp (by simp)
      rw [if_neg hc1] at hp
      by_cases hdup : cr.getD 0 false = true
      · rw [if_pos hdup] at hp
        exact absurd hp (by simp)
      rw [if_neg hdup] at hp
      obtain ⟨i0, i1, i2, i3, il⟩ :=
        parse_castling_chars_sound wk bk rest (cr.set 0 true) cr2 hp
      refine ⟨fun _ => Or.inr (by omega), ?_, ?_, ?_, by simpa using il⟩
      · intro h
        rcases i1 h with h2 | h2
        · exact Or.inl ((getD_set_ne cr 0 1 true false (by omega)).symm.trans h2)
        · exact Or.inr h2
      · intro h
        rcases i2 h with h2 | h2
        · exact Or.inl ((getD_set_ne cr 0 2 true false (by omega)).symm.trans h2)
        · exact Or.inr h2
      · intro h
        rcases i3 h with h2 | h2
        · exact Or.inl ((getD_set_ne cr 0 3 true false (by omega)).symm.trans h2)
        · exact Or.inr h2
    rw [if_neg hKc] at hp
    by_cases hQc : c = 'Q'
    · rw [if_pos hQc] at hp
      by_cases hc1 : ¬(1 ≤ wk ∧ wk ≤ 7)
      · rw [if_pos hc1] at hp
        exact absurd hp (by simp)
      rw [if_neg hc1] at hp
      push_neg at hc1
      by_cases hdup : cr.getD 1 false = true
      · rw [if_pos hdup] at hp
        exact absurd hp (by simp)
      rw [if_neg hdup] at hp
      obtain ⟨i0, i1, i2, i3, il⟩ :=
        parse_castling_chars_sound wk bk rest (cr.set 1 true) cr2 hp
      refine ⟨?_, fun _ => Or.inr hc1, ?_, ?_, by simpa using il⟩
      · intro h
        rcases i0 h with h2 | h2
        · exact Or.inl ((getD_set_ne cr 1 0 true false (by omega)).symm.trans h2)
        · exact Or.inr h2
      · intro h
        rcases i2 h with h2 | h2
        · exact Or.inl ((getD_set_ne cr 1 2 true false (by omega)).symm.trans h2)
        · exact Or.inr h2
      · intro h
        rcases i3 h with h2 | h2
        · exact Or.inl ((getD_set_ne cr 1 3 true false (by omega)).symm.trans h2)
        · exact Or.inr h2
    rw [if_neg hQc] at hp
    by_cases hkc : c = 'k'
    · rw [if_pos hkc] at hp
      by_cases hc1 : ¬(56 ≤ bk ∧ bk ≤ 62)
      · rw [if_pos hc1] at hp
        exact absurd hp (by simp)
      rw [if_neg hc1] at hp
      push_neg at hc1
      by_cases hdup : cr.getD 2 false = true
      · rw [if_pos hdup] at hp
        exact absurd hp (by simp)
      rw [if_neg hdup] at hp
      obtain ⟨i0, i1, i2, i3, il⟩ :=
        parse_castling_chars_sound wk bk rest (cr.set 2 true) cr2 hp
      refine ⟨?_, ?_, fun _ => Or.inr hc1, ?_, by simpa using il⟩
      · intro h
        rcases i0 h with h2 | h2
        · exact Or.inl ((getD_set_ne cr 2 0 true false (by omega)).symm.trans h2)
        · exact Or.inr h2
      · intro h
        rcases i1 h with h2 | h2
        · exact Or.inl ((getD_set_ne cr 2 1 true false (by omega)).symm.trans h2)
        · exact Or.inr h2
      · intro h
        rcases i3 h with h2 | h2
        · exact Or.inl ((getD_set_ne cr 2 3 true false (by omega)).symm.trans h2)
        · exact Or.inr h2
    rw [if_neg hkc] at hp
    by_cases hqc : c = 'q'
    · rw [if_pos hqc] at hp
      by_cases hc1 : ¬(57 ≤ bk ∧ bk < 64)
      · rw [if_pos hc1] at hp
        exact absurd hp (by simp)
      rw [if_neg hc1] at hp
      push_neg at hc1
      by_cases hdup : cr.getD 3 false = true
      · rw [if_pos hdup] at hp
        exact absurd hp (by simp)
      rw [if_neg hdup] at hp
      obtain ⟨i0, i1, i2, i3, il⟩ :=
        parse_castling_chars_sound wk bk rest (cr.set 3 true) cr2 hp
      refine ⟨?_, ?_, ?_, fun _ => Or.inr hc1, by simpa using il⟩
      · intro h
        rcases i0 h with h2 | h2
        · exact Or.inl ((getD_set_ne cr 3 0 true false (by omega)).symm.trans h2)
        · exact Or.inr h2
      · intro h
        rcases i1 h with h2 | h2
        · exact Or.inl ((getD_set_ne cr 3 1 true false (by omega)).symm.trans h2)
        · exact Or.inr h2
      · intro h
        rcases i2 h with h2 | h2
        · exact Or.inl ((getD_set_ne cr 3 2 true false (by omega)).symm.trans h2)
        · exact Or.inr h2
    rw [if_neg hqc] at hp
    exact absurd hp (by simp)


theorem ep_segment (t : Nat)
    (h : (16 ≤ t ∧ t ≤ 23) ∨ (40 ≤ t ∧ t ≤ 47)) :
    parse_ep_field [(idx_to_sq t).1, (idx_to_sq t).2] = Except.ok (some t) ∧
    ∀ c ∈ [(idx_to_sq t).1, (idx_to_sq t).2], c ≠ ' ' := by
  rcases h with ⟨h1, h2⟩ | ⟨h1, h2⟩ <;> interval_cases t <;> exact ⟨rfl, by decide⟩

theorem ep_field_roundtrip (cs : List Char) (ep : Option Nat)
    (h : parse_ep_field cs = Except.ok ep) :
    parse_ep_field (match ep with
        | some target => [(idx_to_sq target).1, (idx_to_sq target).2]
        | none => ['-']) = Except.ok ep ∧
    ∀ c ∈ (match ep with
        | some target => [(idx_to_sq target).1, (idx_to_sq target).2]
        | none => ['-']), c ≠ ' ' := by
  rcases cs with _ | ⟨f, _ | ⟨r, _ | ⟨x, cs⟩⟩⟩
  · rw [parse_ep_field] at h
    case x_1 => simp
    rw [if_pos (by decide)] at h
    exact absurd h (by simp)
  · rw [parse_ep_field] at h
    case x_1 => simp
    by_cases hl : ¬(1 ≤ utf8Len [f] ∧ utf8Len [f] ≤ 2)
    · rw [if_pos hl] at h
      exact absurd h (by simp)
    rw [if_neg hl] at h
    by_cases hdash : ([f] : List Char) = ['-']
    · rw [if_pos hdash] at h
      rw [Except.ok.injEq] at h
      subst h
      exact ⟨rfl, by decide⟩
    rw [if_neg hdash] at h
    exact absurd h (by simp)
  · rw [parse_ep_field] at h
    by_cases hl : ¬(1 ≤ utf8Len [f, r] ∧ utf8Len [f, r] ≤ 2)
    · rw [if_pos hl] at h
      exact absurd h (by simp)
    rw [if_neg hl] at h
    by_cases hdash : ([f, r] : List Char) = ['-']
    · exact absurd hdash (by simp)
    rw [if_neg hdash] at h
    by_cases hc : ('a' ≤ f ∧ f ≤ 'h') ∧ (r = '3' ∨ r = '6')
    · rw [if_pos hc] at h
      rw [Except.ok.injEq] at h
      subst h
      have hfle : f.toNat ≤ 104 :=
        le_trans (Char.le_def.mp hc.1.2) (by decide)
      rcases hc.2 with hr | hr <;> subst hr
      · refine ep_segment (sq_to_idx f '3') ?_
        left
        rw [sq_to_idx]
        have h51 : ('3').toNat = 51 := by decide
        omega
      · refine ep_segment (sq_to_idx f '6') ?_
        right
        rw [sq_to_idx]
        have h54 : ('6').toNat = 54 := by decide
        omega
    · rw [if_neg hc] at h
      exact absurd h (by simp)
  · rw [parse_ep_field] at h
    case x_1 => simp
    by_cases hl : ¬(1 ≤ utf8Len (f :: r :: x :: cs) ∧ utf8Len (f :: r :: x :: cs) ≤ 2)
    · rw [if_pos hl] at h
      exact absurd h (by simp)
    · exfalso
      push_neg at hl
      have h1 : 0 < f.utf8Size := Char.utf8Size_pos f
      have h2 : 0 < r.utf8Size := Char.utf8Size_pos r
      have h3 : 0 < x.utf8Size := Char.utf8Size_pos x
      have hsum : utf8Len (f :: r :: x :: cs)
          = f.utf8Size + (r.utf8Size + (x.utf8Size + utf8Len cs)) := by
        simp [utf8Len]
      omega


theorem encode_content_chars (content : List Occupant) (hlen : content.length = 64) :
    (∀ c ∈ encode_content content, c ≠ ' ') ∧
    ∀ p ∈ (chunks8 content).reverse.map encode_rank_chars, '/' ∉ p := by
  obtain ⟨hcl, hc8, hfl⟩ := chunks8_spec 8 content (by omega)
  constructor
  · intro c hc
    rw [encode_content] at hc
    rcases mem_join_sep '/' _ c hc with rfl | ⟨p, hp1, hp2⟩
    · decide
    · rcases List.mem_map.mp hp1 with ⟨ch, hch1, rfl⟩
      exact (encode_rank_chars_chars ch (le_of_eq (hc8 ch (List.mem_reverse.mp hch1)))
        c hp2).1
  · intro p hp1 hp2
    rcases List.mem_map.mp hp1 with ⟨ch, hch1, rfl⟩
    exact (encode_rank_chars_chars ch (le_of_eq (hc8 ch (List.mem_reverse.mp hch1)))
      '/' hp2).2 rfl

theorem parse_board_field_encode (content : List Occupant)
    (hlen : content.length = 64)
    (hWc : content.count (Occupant.piece ⟨PieceType.K, true⟩) = 1)
    (hBc : content.count (Occupant.piece ⟨PieceType.K, false⟩) = 1) :
    ∃ ptr2, parse_board_field (encode_content content)
      = Except.ok ⟨content, true, content.indexOf (Occupant.piece ⟨PieceType.K, true⟩),
          true, content.indexOf (Occupant.piece ⟨PieceType.K, false⟩), ptr2⟩ := by
  obtain ⟨hcl, hc8, hfl⟩ := chunks8_spec 8 content (by omega)
  have hL : ((chunks8 content).reverse).length = 8 := by
    rw [List.length_reverse, hcl]
  have hsplit : split_on '/' (encode_content content)
      = (chunks8 content).reverse.map encode_rank_chars := by
    rw [encode_content]
    refine split_join '/' _ ?_ ?_
    · intro he
      have hne := congrArg List.length he
      rw [List.length_map, hL] at hne
      simp at hne
    · exact (encode_content_chars content hlen).2
  have hWmem : Occupant.piece ⟨PieceType.K, true⟩ ∈ content := by
    rw [← List.count_pos_iff_mem, hWc]
    omega
  have hBmem : Occupant.piece ⟨PieceType.K, false⟩ ∈ content := by
    rw [← List.count_pos_iff_mem, hBc]
    omega
  obtain ⟨p2, hpr⟩ := parse_ranks_ok ((chunks8 content).reverse) 8 [] false 0 false 0
    (fun c hc => hc8 c (List.mem_reverse.mp hc))
    (fun hcon => absurd hcon (by simp))
    (by rw [List.reverse_reverse, hfl]; exact le_of_eq hWc)
    (fun hcon => absurd hcon (by simp))
    (by rw [List.reverse_reverse, hfl]; exact le_of_eq hBc)
  rw [List.reverse_reverse, hfl, hL] at hpr
  rw [(by norm_num : (8 : Nat) * 8 = 64), (by norm_num : (64 : Nat) - 1 = 63),
    List.append_nil, List.append_nil] at hpr
  simp only [Bool.false_or] at hpr
  rw [if_pos hWmem, if_pos hBmem, decide_eq_true hWmem, decide_eq_true hBmem] at hpr
  refine ⟨p2, ?_⟩
  rw [parse_board_field]
  rw [hsplit]
  rw [if_neg (by simp [hcl])]
  rw [hpr]
  simp


theorem mem_ite_singleton {b : Bool} {x c : Char}
    (h : c ∈ (if b = true then [x] else [])) : c = x := by
  cases b
  · simp at h
  · simpa using h

theorem board_from_fen_fields (content : List Occupant) (side : Bool) (b0 b1 b2 b3 : Bool)
    (epv : Option Nat) (epf : List Char) (hm fm : Nat)
    (hlen64 : content.length = 64)
    (hWc : content.count (Occupant.piece ⟨PieceType.K, true⟩) = 1)
    (hBc : content.count (Occupant.piece ⟨PieceType.K, false⟩) = 1)
    (hcond0 : b0 = true → content.indexOf (Occupant.piece ⟨PieceType.K, true⟩) ≤ 6)
    (hcond1 : b1 = true → 1 ≤ content.indexOf (Occupant.piece ⟨PieceType.K, true⟩) ∧
      content.indexOf (Occupant.piece ⟨PieceType.K, true⟩) ≤ 7)
    (hcond2 : b2 = true → 56 ≤ content.indexOf (Occupant.piece ⟨PieceType.K, false⟩) ∧
      content.indexOf (Occupant.piece ⟨PieceType.K, false⟩) ≤ 62)
    (hcond3 : b3 = true → 57 ≤ content.indexOf (Occupant.piece ⟨PieceType.K, false⟩) ∧
      content.indexOf (Occupant.piece ⟨PieceType.K, false⟩) < 64)
    (hrooks : check_castling_rooks [b0, b1, b2, b3]
      (content.indexOf (Occupant.piece ⟨PieceType.K, true⟩))
      (content.indexOf (Occupant.piece ⟨PieceType.K, false⟩)) content = Except.ok ())
    (hepf : parse_ep_field epf = Except.ok epv)
    (hepns : ∀ c ∈ epf, c ≠ ' ')
    (hhm150 : ¬150 < hm) (hfm1 : ¬fm < 1) :
    board_from_fen (join_sep ' ' [encode_content content,
      (if side then ['w'] else ['b']),
      (if ((if b0 then ['K'] else []) ++ (if b1 then ['Q'] else []) ++
          (if b2 then ['k'] else []) ++ (if b3 then ['q'] else [])).isEmpty then ['-']
        else (if b0 then ['K'] else []) ++ (if b1 then ['Q'] else []) ++
          (if b2 then ['k'] else []) ++ (if b3 then ['q'] else [])),
      epf, nat_chars hm, nat_chars fm])
      = Except.ok ⟨content, side, [b0, b1, b2, b3], epv, hm, fm⟩ := by
  have hns6 : ∀ p ∈ [encode_content content,
      (if side = true then ['w'] else ['b']),
      (if ((if b0 = true then ['K'] else []) ++ (if b1 = true then ['Q'] else []) ++
          (if b2 = true then ['k'] else []) ++ (if b3 = true then ['q'] else [])).isEmpty = true
        then ['-']
        else (if b0 = true then ['K'] else []) ++ (if b1 = true then ['Q'] else []) ++
          (if b2 = true then ['k'] else []) ++ (if b3 = true then ['q'] else [])),
      epf, nat_chars hm, nat_chars fm], ' ' ∉ p := by
    intro p hp
    simp only [List.mem_cons, List.not_mem_nil, or_false] at hp
    rcases hp with rfl | rfl | rfl | rfl | rfl | rfl
    · intro hsp
      exact ((encode_content_chars content hlen64).1 ' ' hsp) rfl
    · cases side <;> decide
    · by_cases hie : ((if b0 = true then ['K'] else []) ++ (if b1 = true then ['Q'] else []) ++
          (if b2 = true then ['k'] else []) ++ (if b3 = true then ['q'] else [])).isEmpty = true
      · rw [if_pos hie]
        decide
      · rw [if_neg hie]
        intro hsp
        rcases List.mem_append.mp hsp with hsp | hsp
        · rcases List.mem_append.mp hsp with hsp | hsp
          · rcases List.mem_append.mp hsp with hsp | hsp
            · exact absurd (mem_ite_singleton hsp) (by decide)
            · exact absurd (mem_ite_singleton hsp) (by decide)
          · exact absurd (mem_ite_singleton hsp) (by decide)
        · exact absurd (mem_ite_singleton hsp) (by decide)
    · intro hsp
      exact hepns ' ' hsp rfl
    · intro hsp
      exact ((nat_chars_facts hm).2 ' ' hsp).2.1 rfl
    · intro hsp
      exact ((nat_chars_facts fm).2 ' ' hsp).2.1 rfl
  obtain ⟨p2, hbfe⟩ := parse_board_field_encode content hlen64 hWc hBc
  have hside2 : parse_side_field (if side = true then ['w'] else ['b'])
      = Except.ok side := by
    cases side
    · rfl
    · rfl
  rw [board_from_fen]
  simp only [split_join ' ' _ (by simp) hns6]
  simp only [hbfe]
  simp only [hside2]
  simp only [canonical_castling_parse b0 b1 b2 b3 _ _ hcond0 hcond1 hcond2 hcond3]
  simp only [hrooks]
  simp only [hepf]
  simp only [parse_usize_nat_chars hm, parse_usize_nat_chars fm]
  rw [if_neg hhm150, if_neg hfm1]


/-- C3: the FEN round trip.  For every FEN string accepted by
`Board::from_fen`, re-parsing the output of `Board::to_fen` on the resulting
board yields that same board back: identical content, side to move, castling
rights, en-passant target, halfmove clock and fullmove number. -/
theorem fen_roundtrip (s : List Char) (b : Board)
    (h : board_from_fen s = Except.ok b) :
    board_from_fen (board_to_fen b) = Except.ok b := by
  rw [board_from_fen] at h
  split at h
  case h_2 => exact absurd h (by simp)
  rename_i f0 f1 f2 f3 f4 f5 hsp
  split at h
  case h_1 => exact absurd h (by simp)
  rename_i st hbf
  split at h
  case h_1 => exact absurd h (by simp)
  rename_i side hside
  split at h
  case h_1 => exact absurd h (by simp)
  rename_i cr hcast
  split at h
  case h_1 => exact absurd h (by simp)
  rename_i u hrooks
  split at h
  case h_1 => exact absurd h (by simp)
  rename_i ep hep
  split at h
  case h_1 => exact absurd h (by simp)
  rename_i hm hhm
  split at h
  case isTrue => exact absurd h (by simp)
  rename_i hhm150
  split at h
  case h_1 => exact absurd h (by simp)
  rename_i fm hfm
  split at h
  case isTrue => exact absurd h (by simp)
  rename_i hfm1
  rw [Except.ok.injEq] at h
  subst h
  obtain ⟨⟨hlen64, hptrst, hk64, hempst, hWKI, hBKI⟩, hwseen, hbseen⟩ :=
    parse_board_field_good f0 st hbf
  rw [hwseen] at hWKI
  rw [hbseen] at hBKI
  obtain ⟨hWc, hWp⟩ := hWKI
  obtain ⟨hBc, hBp⟩ := hBKI
  have hWidx : st.content.indexOf (Occupant.piece ⟨PieceType.K, true⟩) = st.wkPos :=
    count_one_indexOf st.content st.wkPos _ Occupant.empty (by decide) hWc hWp
  have hBidx : st.content.indexOf (Occupant.piece ⟨PieceType.K, false⟩) = st.bkPos :=
    count_one_indexOf st.content st.bkPos _ Occupant.empty (by decide) hBc hBp
  rw [parse_castling_field] at hcast
  by_cases hclen : ¬(1 ≤ utf8Len f2 ∧ utf8Len f2 ≤ 4)
  · rw [if_pos hclen] at hcast
    exact absurd hcast (by simp)
  rw [if_neg hclen] at hcast
  have hconds : cr.length = 4 ∧
      (cr.getD 0 false = true → st.wkPos ≤ 6) ∧
      (cr.getD 1 false = true → 1 ≤ st.wkPos ∧ st.wkPos ≤ 7) ∧
      (cr.getD 2 false = true → 56 ≤ st.bkPos ∧ st.bkPos ≤ 62) ∧
      (cr.getD 3 false = true → 57 ≤ st.bkPos ∧ st.bkPos < 64) := by
    by_cases hdash : f2 = ['-']
    · rw [if_pos hdash, Except.ok.injEq] at hcast
      subst hcast
      exact ⟨rfl, by simp, by simp, by simp, by simp⟩
    · rw [if_neg hdash] at hcast
      obtain ⟨i0, i1, i2, i3, il⟩ :=
        parse_castling_chars_sound st.wkPos st.bkPos f2 _ cr hcast
      refine ⟨by simpa using il, ?_, ?_, ?_, ?_⟩
      · intro hq
        rcases i0 hq with h2 | h2
        · exact absurd h2 (by simp)
        · exact h2
      · intro hq
        rcases i1 hq with h2 | h2
        · exact absurd h2 (by simp)
        · exact h2
      · intro hq
        rcases i2 hq with h2 | h2
        · exact absurd h2 (by simp)
        · exact h2
      · intro hq
        rcases i3 hq with h2 | h2
        · exact absurd h2 (by simp)
        · exact h2
  obtain ⟨hcr4, hcond0, hcond1, hcond2, hcond3⟩ := hconds
  rcases cr with _ | ⟨b0, cr⟩
  · simp only [List.length_nil] at hcr4
    omega
  rcases cr with _ | ⟨b1, cr⟩
  · simp only [List.length_cons, List.length_nil] at hcr4
    omega
  rcases cr with _ | ⟨b2, cr⟩
  · simp only [List.length_cons, List.length_nil] at hcr4
    omega
  rcases cr with _ | ⟨b3, cr⟩
  · simp only [List.length_cons, List.length_nil] at hcr4
    omega
  rcases cr with _ | ⟨bx, cr⟩
  swap
  · simp only [List.length_cons, List.length_nil] at hcr4
    omega
  rcases ep with _ | t
  · exact board_from_fen_fields st.content side b0 b1 b2 b3 none ['-'] hm fm hlen64 hWc hBc
      (fun hb => by rw [hWidx]; exact hcond0 hb)
      (fun hb => by rw [hWidx]; exact hcond1 hb)
      (fun hb => by rw [hBidx]; exact hcond2 hb)
      (fun hb => by rw [hBidx]; exact hcond3 hb)
      (by rw [hWidx, hBidx]; exact hrooks)
      rfl (by decide) hhm150 hfm1
  · have hepg : parse_ep_field [(idx_to_sq t).1, (idx_to_sq t).2] = Except.ok (some t) ∧
        ∀ c ∈ [(idx_to_sq t).1, (idx_to_sq t).2], c ≠ ' ' :=
      ep_field_roundtrip f3 (some t) hep
    exact board_from_fen_fields st.content side b0 b1 b2 b3 (some t)
      [(idx_to_sq t).1, (idx_to_sq t).2] hm fm hlen64 hWc hBc
      (fun hb => by rw [hWidx]; exact hcond0 hb)
      (fun hb => by rw [hWidx]; exact hcond1 hb)
      (fun hb => by rw [hBidx]; exact hcond2 hb)
      (fun hb => by rw [hBidx]; exact hcond3 hb)
      (by rw [hWidx, hBidx]; exact hrooks)
      hepg.1 hepg.2 hhm150 hfm1

/-- Witness for C3: the board of FEN `4k3/8/8/8/8/8/8/4K3 w - - 0 1` (kings
e1 and e8, white to move) is parsed from `fenKk` and survives the
`to_fen`/`from_fen` round trip. -/
theorem fen_roundtrip_witness :
    board_from_fen fenKk = Except.ok boardKk ∧
    board_from_fen (board_to_fen boardKk) = Except.ok boardKk :=
  ⟨by rfl, fen_roundtrip fenKk boardKk (by rfl)⟩

end Rschess
